import Mathlib

set_option linter.unusedSectionVars false

/-!
# Verification of the hierarchical-clustering core pipeline

Shallow embedding of `hierarchical_clustering_lib.py`: the
distance → MST → predecessors → ultrametric pipeline of the class
`HierarchicalClustering`, together with the nested helper
`find_path_between_stocks`.

Modelling conventions:

* The label set is `Fin n`, identifying each ticker with its row/column
  position in the dataframes (all matrices share one label order).
* `numpy` float matrices are modelled over `ℝ` for the distance builder
  (where `sqrt` occurs) and over an arbitrary `LinearOrder` with a zero
  for the purely order-theoretic MST/ultrametric stages; `ℚ` is used for
  concrete executable instances.  A NaN entry (the result of `** 0.5` on
  a negative radicand) is modelled as `Option.none`.
* `pandas.DataFrame.mask(np.tril(...))` replaces the lower triangle and
  the diagonal by NaN, and `scipy.sparse.csr_matrix` drops exact zeros
  but stores NaN entries (NaN is not zero).  The stored entries offered
  to `scipy.sparse.csgraph.minimum_spanning_tree` are therefore the
  strictly-upper-triangle entries with a nonzero finite value
  (`upperEdges`) together with a NaN entry at every lower-triangle and
  diagonal position (`maskedNaNs`).  `np.argsort` places NaN after every
  finite weight, and the union-find edge scan of the spanning-tree
  routine has no weight check, so it processes the finite candidates
  first and then the NaN entries, keeping any entry that joins two
  components: on a disconnected finite-candidate graph the kept NaN
  entries act as bridges and the routine still returns a full spanning
  tree (the C6 theorems below).  Under a genuine distance matrix
  (`IsDistMatrix`) the finite candidates already connect everything, so
  every NaN entry is rejected and the kept set is `mstEdges`; the kept
  NaN bridges of the degenerate cases are impassable to Dijkstra's
  relaxation (a comparison with NaN is false), so the predecessor stage
  is modelled on the finite kept edges.
* `np.argsort` is called with its default `kind`, quicksort, which numpy
  does not document as stable, so the relative order of equal-weight
  candidates (and of the NaN block) is an implementation detail of
  numpy's introsort that the source does not determine.  The model fixes
  one concrete representative order: the finite candidates sorted by the
  injective key (weight, row, column) in lexicographic order
  (`sortedEdges`), the NaN block row-major (`maskedNaNs`).  Every
  theorem below about the structure of the returned forest (acyclicity,
  connectivity, edge count, the rejection invariant, weight minimality,
  path maxima) is invariant under the tie order, and the C6 theorem
  quantifies over all processing orders consistent with the argsort
  contract outright.
* `scipy.sparse.csgraph.dijkstra(..., return_predecessors=True)` is an
  external library call; it is modelled from its documented semantics:
  entry (i, j) is the vertex preceding j on the shortest path from i to
  j, and the sentinel -9999 (modelled as `none`) when j = i or j is
  unreachable from i.  On the forests produced by the MST stage every
  path is unique, so the predecessor is the next-to-last vertex of the
  unique path, which the executable `dfs` below computes.
* Python exceptions are modelled by `Except`: the `raise Exception(...)`
  at the top of `find_path_between_stocks` is `PyError.equalEndpoints`,
  a failing `.loc` label lookup in pandas is `PyError.keyError`, and
  `max([])` is `PyError.valueError`.  The source contains no
  `DisconnectedGraphError`, `InvalidInputError` or `InvalidPairError`
  classes and no `raise` besides the one above, so no such constructors
  exist here.
-/

namespace HCluster

/-! ## Distance Matrix Builder (`HierarchicalClustering.distance_matrix`) -/

/-- `numpy`'s elementwise `x ** 0.5`: NaN (modelled `none`) on a negative
radicand, the real square root otherwise. -/
noncomputable def npSqrt (x : ℝ) : Option ℝ :=
  if x < 0 then none else some (Real.sqrt x)

/-- `distance_matrix`: entrywise `(2 * (1 - corr)) ** 0.5` applied to a
correlation matrix.  The method performs no input validation. -/
noncomputable def distance_matrix {n : ℕ} (ρ : Fin n → Fin n → ℝ) :
    Fin n → Fin n → Option ℝ :=
  fun i j => npSqrt (2 * (1 - ρ i j))

/-- A valid correlation matrix: symmetric, unit diagonal, entries in
[-1, 1]. -/
def IsCorrMatrix {n : ℕ} (ρ : Fin n → Fin n → ℝ) : Prop :=
  (∀ i j, ρ i j = ρ j i) ∧ (∀ i, ρ i i = 1) ∧ (∀ i j, -1 ≤ ρ i j ∧ ρ i j ≤ 1)

/-! ## MST Builder (`HierarchicalClustering.minimum_spanning_tree`) -/

variable {α : Type} [LinearOrder α] [Zero α]

/-- The candidate edges handed to scipy's spanning-tree routine: the
strict upper triangle of the distance matrix after the lower-triangle
mask, with the exact zeros dropped by the `csr_matrix` conversion.
Generated in row-major order, as the csr data array is. -/
def upperEdges {n : ℕ} (d : Fin n → Fin n → α) : List (Fin n × Fin n) :=
  (List.finRange n).flatMap fun i =>
    (List.finRange n).filterMap fun j =>
      if i < j ∧ d i j ≠ 0 then some (i, j) else none

/-- The weight of a candidate edge. -/
def wt {n : ℕ} (d : Fin n → Fin n → α) (e : Fin n × Fin n) : α := d e.1 e.2

/-- The sort key of a candidate edge: (weight, row, column),
lexicographically ordered.  An injective key refining the
weight-ascending order `np.argsort` guarantees; the (row, column)
component is one concrete resolution of the tie order the unstable
sort leaves unspecified. -/
def edgeKey {n : ℕ} (d : Fin n → Fin n → α) (e : Fin n × Fin n) :
    α ×ₗ (Fin n ×ₗ Fin n) :=
  toLex (wt d e, toLex (e.1, e.2))

/-- Strict ordering of candidate edges by their sort key. -/
def EdgeLT {n : ℕ} (d : Fin n → Fin n → α) (e f : Fin n × Fin n) : Prop :=
  edgeKey d e < edgeKey d f

/-- Reflexive closure of `EdgeLT`, the comparator used for sorting. -/
def EdgeLE {n : ℕ} (d : Fin n → Fin n → α) (e f : Fin n × Fin n) : Prop :=
  edgeKey d e ≤ edgeKey d f

instance {n : ℕ} (d : Fin n → Fin n → α) (e f : Fin n × Fin n) :
    Decidable (EdgeLT d e f) := by unfold EdgeLT; infer_instance

instance {n : ℕ} (d : Fin n → Fin n → α) (e f : Fin n × Fin n) :
    Decidable (EdgeLE d e f) := by unfold EdgeLE; infer_instance

/-- The finite candidate edges in one representative of scipy's
processing order: ascending weight, ties resolved row-major. -/
def sortedEdges {n : ℕ} (d : Fin n → Fin n → α) : List (Fin n × Fin n) :=
  (upperEdges d).mergeSort fun e f => decide (EdgeLE d e f)

/-- One union of the union-find structure: merge the component of `u`
into the component of `v`.  `r` maps every vertex to its component
representative. -/
def dsuUnion {n : ℕ} (r : Fin n → Fin n) (u v : Fin n) : Fin n → Fin n :=
  fun x => if r x = r u then r v else r x

/-- Kruskal's scan: keep an edge iff its endpoints lie in different
components. -/
def kruskal {n : ℕ} (r : Fin n → Fin n) :
    List (Fin n × Fin n) → List (Fin n × Fin n)
  | [] => []
  | e :: es =>
    if r e.1 = r e.2 then kruskal r es
    else e :: kruskal (dsuUnion r e.1 e.2) es

/-- The union-find state after scanning a list of edges. -/
def dsuAfter {n : ℕ} (r : Fin n → Fin n) :
    List (Fin n × Fin n) → (Fin n → Fin n)
  | [] => r
  | e :: es =>
    if r e.1 = r e.2 then dsuAfter r es
    else dsuAfter (dsuUnion r e.1 e.2) es

/-- The edges of the spanning forest returned by
`minimum_spanning_tree`, in the order scipy keeps them. -/
def mstEdges {n : ℕ} (d : Fin n → Fin n → α) : List (Fin n × Fin n) :=
  kruskal id (sortedEdges d)

/-- The dense matrix `mst` returned by the method: the kept edges at
their upper-triangle positions, zero elsewhere (`toarray`). -/
def minimum_spanning_tree {n : ℕ} (d : Fin n → Fin n → α) :
    Fin n → Fin n → α :=
  fun i j => if (i, j) ∈ mstEdges d then d i j else 0

/-- The positions the lower-triangle mask sets to NaN, row-major:
`(i, j)` with `j ≤ i`.  `csr_matrix` stores these NaN entries (NaN is
not zero) and `np.argsort` places them after every finite weight, so
the edge scan processes them last, in an order the unstable sort
leaves unspecified. -/
def maskedNaNs (n : ℕ) : List (Fin n × Fin n) :=
  (List.finRange n).flatMap fun i =>
    (List.finRange n).filterMap fun j =>
      if j ≤ i then some (i, j) else none

/-- The full edge scan of `scipy.sparse.csgraph.minimum_spanning_tree`:
Kruskal over the finite candidates followed by the stored NaN entries,
with the row-major order as one concrete representative of the
unspecified order within the NaN block. -/
def mstEdgesNaN {n : ℕ} (d : Fin n → Fin n → α) : List (Fin n × Fin n) :=
  kruskal id (sortedEdges d ++ maskedNaNs n)

/-! ## Predecessor Tree Builder (`HierarchicalClustering.predecessors_matrix`) -/

/-- Undirected adjacency of an edge list (`directed=False`). -/
def adjB {n : ℕ} (es : List (Fin n × Fin n)) (x y : Fin n) : Bool :=
  es.any fun e => (e.1 = x ∧ e.2 = y) ∨ (e.1 = y ∧ e.2 = x)

/-- Depth-first search for a path from `cur` to `tgt` avoiding
`visited`, returning the vertex sequence.  On the acyclic graphs the
MST stage produces, the returned path is the unique one. -/
def dfs {n : ℕ} (adj : Fin n → Fin n → Bool) :
    ℕ → List (Fin n) → Fin n → Fin n → Option (List (Fin n))
  | 0, _, _, _ => none
  | fuel + 1, visited, cur, tgt =>
    if cur = tgt then some [cur]
    else
      (List.finRange n).findSome? fun v =>
        if adj cur v = true ∧ v ∉ visited then
          (dfs adj fuel (cur :: visited) v tgt).map (cur :: ·)
        else none

/-- Modelled from the documented semantics of
`scipy.sparse.csgraph.dijkstra(csgraph, directed=False,
return_predecessors=True)`, applied to the MST and followed by the
index-to-label `replace`: entry (i, j) is the vertex preceding j on
the shortest path from i to j, and the sentinel -9999 (here `none`)
when j = i or j is unreachable.  On a forest the shortest path is the
unique path, computed here by `dfs`; its next-to-last vertex is the
predecessor. -/
def predecessors_matrix {n : ℕ} (d : Fin n → Fin n → α) :
    Fin n → Fin n → Option (Fin n) :=
  fun i j => (dfs (adjB (mstEdges d)) n [] i j).bind fun l => l.dropLast.getLast?

/-! ## Path reconstruction (`find_path_between_stocks`) and
ultrametric derivation (`HierarchicalClustering.ultrametric_distance_matrix`) -/

/-- The exceptions the pipeline can raise.  `keyError` is a failing
pandas `.loc` lookup; `equalEndpoints a b` is the explicit
`raise Exception(f"Trying to go from {a} to {b}. You can't have have a
starting point equal to destination")`; `valueError` is `max([])`;
`timeout` marks a non-terminating `while` loop (never reached on the
tables this repository builds). -/
inductive PyError (L : Type) where
  | keyError
  | equalEndpoints (a b : L)
  | valueError
  | timeout
deriving DecidableEq

/-- A predecessors DataFrame: its index/column labels and its entries
(`none` is the -9999 sentinel). -/
structure PredTable (L : Type) where
  labels : List L
  entry : L → L → Option L

/-- `predecessors.loc[a, b]`: a KeyError unless both labels are
present. -/
def locPred {L : Type} [DecidableEq L] (t : PredTable L) (a b : L) :
    Except (PyError L) (Option L) :=
  if a ∈ t.labels ∧ b ∈ t.labels then .ok (t.entry a b) else .error .keyError

/-- The `while go_from != predecessors.loc[go_from, go_to]` loop,
accumulating the intermediate vertices (head = closest to `goFrom`).
A -9999 read inside the loop sends -9999 into the next `.loc` lookup,
which raises a KeyError. -/
def walkBack {L : Type} [DecidableEq L] (t : PredTable L) (goFrom : L) :
    ℕ → L → List L → Except (PyError L) (List L)
  | 0, _, _ => .error .timeout
  | fuel + 1, goTo, path =>
    match locPred t goFrom goTo with
    | .error e => .error e
    | .ok none => .error .keyError
    | .ok (some p) =>
      if p = goFrom then .ok path
      else walkBack t goFrom fuel p (p :: path)

/-- The nested helper `find_path_between_stocks(go_from, go_to,
predecessors)`: raises on a -9999 entry for the requested pair, then
follows predecessors back to `go_from` and returns the consecutive
pairs of the reconstructed vertex sequence. -/
def find_path_between_stocks {L : Type} [DecidableEq L] (goFrom goTo : L)
    (t : PredTable L) : Except (PyError L) (List (L × L)) :=
  match locPred t goFrom goTo with
  | .error e => .error e
  | .ok none => .error (.equalEndpoints goFrom goTo)
  | .ok (some _) =>
    match walkBack t goFrom (t.labels.length + 1) goTo [goTo] with
    | .error e => .error e
    | .ok path =>
      let full := goFrom :: path
      .ok (full.zip full.tail)

/-- Python's `max` on a list: a ValueError (modelled `none`) when
empty. -/
def pyMax : List α → Option α
  | [] => none
  | x :: xs => some (xs.foldl max x)

/-- The double loop of `ultrametric_distance_matrix`: for every ordered
pair with distinct components, reconstruct the path and record the
maximum original distance along it. -/
def ultraLoop {n : ℕ} (d : Fin n → Fin n → α) (t : PredTable (Fin n)) :
    List (Fin n × Fin n) → (Fin n → Fin n → α) →
      Except (PyError (Fin n)) (Fin n → Fin n → α)
  | [], acc => .ok acc
  | (i, j) :: rest, acc =>
    if i = j then ultraLoop d t rest acc
    else
      match find_path_between_stocks i j t with
      | .error e => .error e
      | .ok steps =>
        match pyMax (steps.map fun s => d s.1 s.2) with
        | none => .error .valueError
        | some m =>
          ultraLoop d t rest fun i' j' => if i' = i ∧ j' = j then m else acc i' j'

/-- The row-major traversal order of the double loop. -/
def allPairs (n : ℕ) : List (Fin n × Fin n) :=
  (List.finRange n).flatMap fun i => (List.finRange n).map fun j => (i, j)

/-- The predecessors DataFrame the ultrametric stage consults. -/
def predTable {n : ℕ} (d : Fin n → Fin n → α) : PredTable (Fin n) :=
  ⟨List.finRange n, predecessors_matrix d⟩

/-- `ultrametric_distance_matrix`: run the double loop, then
`np.fill_diagonal(..., 0)`. -/
def ultrametric_distance_matrix {n : ℕ} (d : Fin n → Fin n → α) :
    Except (PyError (Fin n)) (Fin n → Fin n → α) :=
  (ultraLoop d (predTable d) (allPairs n) fun _ _ => 0).map
    fun M => fun i j => if i = j then 0 else M i j

/-! ## Specification-side notions -/

/-- A distance matrix in the sense of the specification's data model:
square (enforced by the type), symmetric, zero diagonal, and — by the
metric axioms the specification imposes — positive off the diagonal. -/
def IsDistMatrix {n : ℕ} (d : Fin n → Fin n → α) : Prop :=
  (∀ i j, d i j = d j i) ∧ (∀ i, d i i = 0) ∧ ∀ i j, i ≠ j → 0 < d i j

instance {n : ℕ} (d : Fin n → Fin n → α) : Decidable (IsDistMatrix d) := by
  unfold IsDistMatrix
  infer_instance

/-- The undirected simple graph spanned by a set of vertex pairs. -/
def pairGraph {V : Type} (P : Set (V × V)) : SimpleGraph V :=
  SimpleGraph.fromEdgeSet { z | ∃ p ∈ P, z = s(p.1, p.2) }

/-- The undirected simple graph spanned by an edge list. -/
def graphOf {V : Type} (es : List (V × V)) : SimpleGraph V :=
  pairGraph { e | e ∈ es }

/-- The undirected simple graph spanned by a finite set of edges. -/
def graphOfF {V : Type} (T : Finset (V × V)) : SimpleGraph V :=
  pairGraph ↑T

/-- The graph of the spanning forest the MST builder returns. -/
def mstGraph {n : ℕ} (d : Fin n → Fin n → α) : SimpleGraph (Fin n) :=
  graphOf (mstEdges d)

/-- A vertex list that realizes a path from `a` to `b` in `G`. -/
def IsListPath {V : Type} (G : SimpleGraph V) (a b : V) (l : List V) : Prop :=
  l.Chain' G.Adj ∧ l.head? = some a ∧ l.getLast? = some b ∧ l.Nodup

/-- Build a walk from a chain of adjacent vertices. -/
def walkOfChain {V : Type} {G : SimpleGraph V} :
    (a : V) → (l : List V) → List.Chain G.Adj a l →
      G.Walk a ((a :: l).getLast (List.cons_ne_nil a l))
  | _, [], _ => SimpleGraph.Walk.nil
  | _, b :: l, h =>
    SimpleGraph.Walk.cons (List.chain_cons.mp h).1
      (walkOfChain b l (List.chain_cons.mp h).2)

/-- Total weight of a list of edges. -/
def listWeight {n : ℕ} [AddCommMonoid α] [LinearOrder α]
    (d : Fin n → Fin n → α) (es : List (Fin n × Fin n)) : α :=
  (es.map fun e => d e.1 e.2).sum

/-- Total weight of a finite set of edges. -/
def setWeight {n : ℕ} [AddCommMonoid α] [LinearOrder α]
    (d : Fin n → Fin n → α) (T : Finset (Fin n × Fin n)) : α :=
  ∑ e ∈ T, d e.1 e.2

/-- A spanning tree of the complete graph on the label set, presented as
a finite set of upper-triangle vertex pairs. -/
def IsSpanTree {n : ℕ} (T : Finset (Fin n × Fin n)) : Prop :=
  (∀ e ∈ T, e.1 < e.2) ∧ (graphOfF T).IsTree

/-- The union-find map `r` represents the components of the graph `H`:
two vertices share a representative iff they are connected. -/
def ReprDSU {n : ℕ} (r : Fin n → Fin n) (H : SimpleGraph (Fin n)) : Prop :=
  ∀ x y, r x = r y ↔ H.Reachable x y

/-- The value the double loop of `ultrametric_distance_matrix` computes
for one ordered pair: the maximum original distance along the
reconstructed path (`none` when the reconstruction raises or the step
list is empty). -/
def ultraEntryVal {n : ℕ} (d : Fin n → Fin n → α) (i j : Fin n) : Option α :=
  match find_path_between_stocks i j (predTable d) with
  | .ok steps => pyMax (steps.map fun s => d s.1 s.2)
  | .error _ => none

/-- The weight of an unordered edge, read from the upper triangle. -/
def wSym {n : ℕ} (d : Fin n → Fin n → α) (z : Sym2 (Fin n)) : α :=
  Sym2.lift ⟨fun a b => d (min a b) (max a b), by
    intro a b
    rcases le_total a b with h | h <;>
      simp [min_eq_left, max_eq_right, min_eq_right, max_eq_left, h]⟩ z

/-! ## Concrete instances (the specification's worked 4-label example
and boundary inputs) -/

/-- The specification's end-to-end scenario: labels A,B,C,D as 0,1,2,3
with d(A,B)=0.2, d(A,C)=0.5, d(A,D)=0.9, d(B,C)=0.4, d(B,D)=0.8,
d(C,D)=0.3, scaled by 10 so that kernel evaluation over `ℚ` stays on
integer literals. -/
def dEx : Fin 4 → Fin 4 → ℚ := fun i j =>
  if i = j then 0 else
  if (i = 0 ∧ j = 1) ∨ (j = 0 ∧ i = 1) then 2 else
  if (i = 0 ∧ j = 2) ∨ (j = 0 ∧ i = 2) then 5 else
  if (i = 0 ∧ j = 3) ∨ (j = 0 ∧ i = 3) then 9 else
  if (i = 1 ∧ j = 2) ∨ (j = 1 ∧ i = 2) then 4 else
  if (i = 1 ∧ j = 3) ∨ (j = 1 ∧ i = 3) then 8 else 3

/-- The ultrametric matrix the pipeline computes on the example. -/
def uEx : Fin 4 → Fin 4 → ℚ :=
  (ultrametric_distance_matrix dEx).toOption.getD fun _ _ => 0

/-- A 2-label distance matrix whose only off-diagonal entry is an exact
zero: its edge is dropped by the csr conversion, so the implied graph is
disconnected. -/
def dZ2 : Fin 2 → Fin 2 → ℚ := fun _ _ => 0

/-- A valid 2-label correlation matrix. -/
noncomputable def ρEx : Fin 2 → Fin 2 → ℝ := fun i j => if i = j then 1 else 1/2

/-- An invalid correlation matrix: off-diagonal correlation 2 lies
outside [-1, 1]. -/
noncomputable def ρBad : Fin 2 → Fin 2 → ℝ := fun i j => if i = j then 1 else 2

/-- Two perfectly correlated instruments: correlation exactly 1
everywhere. -/
noncomputable def ρOne : Fin 2 → Fin 2 → ℝ := fun _ _ => 1

/-- The all-zero real distance matrix that `ρOne` produces. -/
noncomputable def dZR : Fin 2 → Fin 2 → ℝ := fun _ _ => 0

/-- A predecessors table over integer labels 0 and 1, used to query a
label that is not present. -/
def tEx : PredTable ℕ := ⟨[0, 1], fun _ _ => none⟩

/-! ## Candidate-edge and sorting lemmas -/

theorem mem_upperEdges {n : ℕ} {d : Fin n → Fin n → α} {e : Fin n × Fin n} :
    e ∈ upperEdges d ↔ e.1 < e.2 ∧ d e.1 e.2 ≠ 0 := by
  simp only [upperEdges, List.mem_flatMap, List.mem_filterMap, List.mem_finRange, true_and]
  constructor
  · rintro ⟨i, j, hj⟩
    by_cases h : i < j ∧ d i j ≠ 0
    · rw [if_pos h] at hj; cases hj; exact h
    · rw [if_neg h] at hj; cases hj
  · rintro ⟨h1, h2⟩
    exact ⟨e.1, e.2, by rw [if_pos ⟨h1, h2⟩]⟩

theorem nodup_upperEdges {n : ℕ} {d : Fin n → Fin n → α} :
    (upperEdges d).Nodup := by
  apply List.nodup_flatMap.mpr
  constructor
  · intro i _
    refine List.Nodup.filterMap ?_ (List.nodup_finRange n)
    intro a a' b ha ha'
    simp only [Option.mem_def] at ha ha'
    by_cases h : i < a ∧ d i a ≠ 0
    · rw [if_pos h] at ha
      by_cases h' : i < a' ∧ d i a' ≠ 0
      · rw [if_pos h'] at ha'
        cases ha; cases ha'; rfl
      · rw [if_neg h'] at ha'; cases ha'
    · rw [if_neg h] at ha; cases ha
  · refine (List.nodup_finRange n).imp ?_
    intro i i' hne
    intro x hx hx'
    simp only [List.mem_filterMap, List.mem_finRange, true_and] at hx hx'
    obtain ⟨j, hj⟩ := hx
    obtain ⟨j', hj'⟩ := hx'
    by_cases h : i < j ∧ d i j ≠ 0
    · rw [if_pos h] at hj
      by_cases h' : i' < j' ∧ d i' j' ≠ 0
      · rw [if_pos h'] at hj'
        cases hj; cases hj'; exact hne rfl
      · rw [if_neg h'] at hj'; cases hj'
    · rw [if_neg h] at hj; cases hj

theorem edgeKey_injective {n : ℕ} (d : Fin n → Fin n → α) :
    Function.Injective (edgeKey d) := by
  intro e f h
  unfold edgeKey at h
  have h2 := congrArg (fun z => (ofLex z).2) h
  simp only at h2
  have h3 := congrArg (fun z => (ofLex z).1) h2
  have h4 := congrArg (fun z => (ofLex z).2) h2
  simp only [ofLex_toLex] at h3 h4
  exact Prod.ext h3 h4

theorem edgeLE_total {n : ℕ} (d : Fin n → Fin n → α) (e f : Fin n × Fin n) :
    EdgeLE d e f ∨ EdgeLE d f e := le_total _ _

theorem edgeLE_trans {n : ℕ} {d : Fin n → Fin n → α} {e f g : Fin n × Fin n} :
    EdgeLE d e f → EdgeLE d f g → EdgeLE d e g := le_trans

theorem edgeLT_of_edgeLE_of_ne {n : ℕ} {d : Fin n → Fin n → α}
    {e f : Fin n × Fin n} (h : EdgeLE d e f) (hne : e ≠ f) : EdgeLT d e f :=
  lt_of_le_of_ne h fun hk => hne (edgeKey_injective d hk)

theorem sortedEdges_perm {n : ℕ} (d : Fin n → Fin n → α) :
    List.Perm (sortedEdges d) (upperEdges d) :=
  List.mergeSort_perm _ _

theorem mem_sortedEdges {n : ℕ} {d : Fin n → Fin n → α} {e : Fin n × Fin n} :
    e ∈ sortedEdges d ↔ e ∈ upperEdges d :=
  (sortedEdges_perm d).mem_iff

theorem nodup_sortedEdges {n : ℕ} (d : Fin n → Fin n → α) :
    (sortedEdges d).Nodup :=
  (sortedEdges_perm d).nodup_iff.mpr nodup_upperEdges

theorem pairwise_edgeLE_sortedEdges {n : ℕ} (d : Fin n → Fin n → α) :
    (sortedEdges d).Pairwise (EdgeLE d) := by
  have h := @List.sorted_mergeSort _ (fun e f => decide (EdgeLE d e f))
    (fun a b c hab hbc =>
      decide_eq_true (edgeLE_trans (of_decide_eq_true hab) (of_decide_eq_true hbc)))
    (fun a b => by
      rcases edgeLE_total d a b with h | h <;> simp [decide_eq_true h])
    (upperEdges d)
  exact h.imp fun hab => of_decide_eq_true hab

theorem pairwise_edgeLT_sortedEdges {n : ℕ} (d : Fin n → Fin n → α) :
    (sortedEdges d).Pairwise (EdgeLT d) :=
  ((pairwise_edgeLE_sortedEdges d).and (nodup_sortedEdges d)).imp
    fun ⟨hle, hne⟩ => edgeLT_of_edgeLE_of_ne hle hne

/-! ## Kruskal scan: list-level lemmas -/

theorem kruskal_sublist {n : ℕ} (r : Fin n → Fin n) (es : List (Fin n × Fin n)) :
    List.Sublist (kruskal r es) es := by
  induction es generalizing r with
  | nil => simp [kruskal]
  | cons e es ih =>
    rw [kruskal]
    split
    · exact (ih r).cons e
    · exact (ih _).cons₂ e

theorem kruskal_append {n : ℕ} (r : Fin n → Fin n)
    (es₁ es₂ : List (Fin n × Fin n)) :
    kruskal r (es₁ ++ es₂) = kruskal r es₁ ++ kruskal (dsuAfter r es₁) es₂ := by
  induction es₁ generalizing r with
  | nil => simp [kruskal, dsuAfter]
  | cons e es ih =>
    rw [List.cons_append, kruskal, kruskal, dsuAfter]
    split
    · exact ih r
    · rw [List.cons_append, ih _]

theorem mstEdges_sublist_sortedEdges {n : ℕ} (d : Fin n → Fin n → α) :
    List.Sublist (mstEdges d) (sortedEdges d) :=
  kruskal_sublist id (sortedEdges d)

theorem mem_upperEdges_of_mem_mstEdges {n : ℕ} {d : Fin n → Fin n → α}
    {e : Fin n × Fin n} (h : e ∈ mstEdges d) : e ∈ upperEdges d :=
  mem_sortedEdges.mp ((mstEdges_sublist_sortedEdges d).subset h)

theorem nodup_mstEdges {n : ℕ} (d : Fin n → Fin n → α) :
    (mstEdges d).Nodup :=
  (mstEdges_sublist_sortedEdges d).nodup (nodup_sortedEdges d)

theorem pairwise_edgeLT_mstEdges {n : ℕ} (d : Fin n → Fin n → α) :
    (mstEdges d).Pairwise (EdgeLT d) :=
  (pairwise_edgeLT_sortedEdges d).sublist (mstEdges_sublist_sortedEdges d)

/-! ## Graph lemmas -/

theorem pairGraph_adj {V : Type} {P : Set (V × V)} {x y : V} :
    (pairGraph P).Adj x y ↔ (∃ p ∈ P, s(p.1, p.2) = s(x, y)) ∧ x ≠ y := by
  rw [pairGraph, SimpleGraph.fromEdgeSet_adj]
  constructor
  · rintro ⟨⟨p, hp, hz⟩, hne⟩
    exact ⟨⟨p, hp, hz.symm⟩, hne⟩
  · rintro ⟨⟨p, hp, hz⟩, hne⟩
    exact ⟨⟨p, hp, hz.symm⟩, hne⟩

theorem graphOf_adj {V : Type} {es : List (V × V)} {x y : V} :
    (graphOf es).Adj x y ↔ (∃ e ∈ es, s(e.1, e.2) = s(x, y)) ∧ x ≠ y :=
  pairGraph_adj

theorem graphOfF_adj {V : Type} {T : Finset (V × V)} {x y : V} :
    (graphOfF T).Adj x y ↔ (∃ e ∈ T, s(e.1, e.2) = s(x, y)) ∧ x ≠ y :=
  pairGraph_adj

theorem pairGraph_mono {V : Type} {P Q : Set (V × V)} (h : P ⊆ Q) :
    pairGraph P ≤ pairGraph Q :=
  SimpleGraph.fromEdgeSet_mono fun z => by
    rintro ⟨p, hp, rfl⟩; exact ⟨p, h hp, rfl⟩

theorem graphOf_mono {V : Type} {es es' : List (V × V)}
    (h : ∀ e, e ∈ es → e ∈ es') : graphOf es ≤ graphOf es' :=
  pairGraph_mono h

theorem graphOf_eq_of_mem_iff {V : Type} {es es' : List (V × V)}
    (h : ∀ e, e ∈ es ↔ e ∈ es') : graphOf es = graphOf es' := by
  unfold graphOf
  congr 1
  ext e
  exact h e

theorem graphOf_nil {V : Type} : graphOf ([] : List (V × V)) = ⊥ := by
  rw [graphOf, pairGraph]
  convert SimpleGraph.fromEdgeSet_empty
  simp

theorem graphOf_cons {V : Type} (e : V × V) (es : List (V × V)) :
    graphOf (e :: es) = graphOf es ⊔ SimpleGraph.edge e.1 e.2 := by
  ext x y
  rw [graphOf_adj, SimpleGraph.sup_adj, graphOf_adj, SimpleGraph.edge_adj]
  constructor
  · rintro ⟨⟨f, hf, hz⟩, hne⟩
    rcases List.mem_cons.mp hf with rfl | hf
    · exact Or.inr ⟨Sym2.eq_iff.mp hz.symm, hne⟩
    · exact Or.inl ⟨⟨f, hf, hz⟩, hne⟩
  · rintro (⟨⟨f, hf, hz⟩, hne⟩ | ⟨hz, hne⟩)
    · exact ⟨⟨f, List.mem_cons_of_mem e hf, hz⟩, hne⟩
    · exact ⟨⟨e, List.mem_cons_self e es, (Sym2.eq_iff.mpr hz).symm⟩, hne⟩

theorem sup_graphOf_cons {V : Type} (H : SimpleGraph V) (e : V × V)
    (es : List (V × V)) :
    H ⊔ graphOf (e :: es) = (H ⊔ SimpleGraph.edge e.1 e.2) ⊔ graphOf es := by
  rw [graphOf_cons]
  rw [sup_comm (graphOf es) _, ← sup_assoc]

/-- Reachability across a graph extended by one edge `u-v`: either the
endpoints were already connected, or the walk crosses the new edge in
one of the two directions. -/
theorem reachable_sup_edge {V : Type} {G : SimpleGraph V} {u v x y : V} :
    (G ⊔ SimpleGraph.edge u v).Reachable x y ↔
      G.Reachable x y ∨ (G.Reachable x u ∧ G.Reachable v y) ∨
        (G.Reachable x v ∧ G.Reachable u y) := by
  constructor
  · rintro ⟨w⟩
    induction w with
    | nil => exact Or.inl (SimpleGraph.Reachable.refl _)
    | @cons a b c hab w ih =>
      rcases (SimpleGraph.sup_adj _ _ _ _).mp hab with hG | hE
      · have hr : G.Reachable a b := hG.reachable
        rcases ih with h | ⟨h1, h2⟩ | ⟨h1, h2⟩
        · exact Or.inl (hr.trans h)
        · exact Or.inr (Or.inl ⟨hr.trans h1, h2⟩)
        · exact Or.inr (Or.inr ⟨hr.trans h1, h2⟩)
      · rw [SimpleGraph.edge_adj] at hE
        rcases hE.1 with ⟨rfl, rfl⟩ | ⟨rfl, rfl⟩
        · rcases ih with h | ⟨h1, h2⟩ | ⟨h1, h2⟩
          · exact Or.inr (Or.inl ⟨SimpleGraph.Reachable.refl _, h⟩)
          · exact Or.inr (Or.inl ⟨SimpleGraph.Reachable.refl _, h2⟩)
          · exact Or.inl h2
        · rcases ih with h | ⟨h1, h2⟩ | ⟨h1, h2⟩
          · exact Or.inr (Or.inr ⟨SimpleGraph.Reachable.refl _, h⟩)
          · exact Or.inl h2
          · exact Or.inl (h1.symm.trans h2)
  · have hmono : ∀ {a b : V}, G.Reachable a b →
        (G ⊔ SimpleGraph.edge u v).Reachable a b :=
      fun h => h.mono le_sup_left
    by_cases huv : u = v
    · subst huv
      rintro (h | ⟨h1, h2⟩ | ⟨h1, h2⟩)
      · exact hmono h
      · exact hmono (h1.trans h2)
      · exact hmono (h1.trans h2)
    · have hadj : (G ⊔ SimpleGraph.edge u v).Reachable u v :=
        ((SimpleGraph.sup_adj _ _ _ _).mpr (Or.inr
          ((SimpleGraph.edge_adj u v u v).mpr ⟨Or.inl ⟨rfl, rfl⟩, huv⟩))).reachable
      rintro (h | ⟨h1, h2⟩ | ⟨h1, h2⟩)
      · exact hmono h
      · exact (hmono h1).trans (hadj.trans (hmono h2))
      · exact (hmono h1).trans (hadj.symm.trans (hmono h2))

theorem reachable_sup_edge_of_reachable {V : Type} {G : SimpleGraph V}
    {u v x y : V} (h : G.Reachable u v) :
    (G ⊔ SimpleGraph.edge u v).Reachable x y ↔ G.Reachable x y := by
  rw [reachable_sup_edge]
  constructor
  · rintro (hr | ⟨h1, h2⟩ | ⟨h1, h2⟩)
    · exact hr
    · exact h1.trans (h.trans h2)
    · exact h1.trans (h.symm.trans h2)
  · exact Or.inl

/-- Deleting the fresh edge from `G ⊔ edge u v` gives back `G` when
`u`, `v` were not adjacent in `G`. -/
theorem sup_edge_sdiff {V : Type} {G : SimpleGraph V} {u v : V}
    (h : ¬G.Adj u v) :
    (G ⊔ SimpleGraph.edge u v) \ SimpleGraph.fromEdgeSet {s(u, v)} = G := by
  ext x y
  rw [SimpleGraph.sdiff_adj, SimpleGraph.sup_adj, SimpleGraph.edge_adj,
    SimpleGraph.fromEdgeSet_adj, Set.mem_singleton_iff]
  constructor
  · rintro ⟨hadj | hadj, hmem⟩
    · exact hadj
    · exact absurd ⟨(Sym2.eq_iff.mpr (by tauto) : s(x, y) = s(u, v)), hadj.2⟩ hmem
  · intro hadj
    refine ⟨Or.inl hadj, ?_⟩
    rintro ⟨hmem, -⟩
    rcases Sym2.eq_iff.mp hmem with ⟨rfl, rfl⟩ | ⟨rfl, rfl⟩
    · exact h hadj
    · exact h hadj.symm

/-- Deleting an old edge commutes with adding a distinct new one. -/
theorem sup_edge_sdiff_of_ne {V : Type} {G : SimpleGraph V}
    {u v : V} {z : Sym2 V} (hz : z ≠ s(u, v)) :
    (G ⊔ SimpleGraph.edge u v) \ SimpleGraph.fromEdgeSet {z} =
      (G \ SimpleGraph.fromEdgeSet {z}) ⊔ SimpleGraph.edge u v := by
  ext x y
  rw [SimpleGraph.sdiff_adj, SimpleGraph.sup_adj, SimpleGraph.sup_adj,
    SimpleGraph.sdiff_adj, SimpleGraph.edge_adj, SimpleGraph.fromEdgeSet_adj,
    Set.mem_singleton_iff]
  constructor
  · rintro ⟨hadj | hadj, hmem⟩
    · exact Or.inl ⟨hadj, hmem⟩
    · exact Or.inr hadj
  · rintro (⟨hadj, hmem⟩ | hadj)
    · exact ⟨Or.inl hadj, hmem⟩
    · refine ⟨Or.inr hadj, ?_⟩
      rintro ⟨hmem, -⟩
      apply hz
      rw [← hmem]
      rcases hadj.1 with ⟨rfl, rfl⟩ | ⟨rfl, rfl⟩
      · rfl
      · exact Sym2.eq_swap

/-- Adding an edge between two vertices that are not connected keeps a
graph acyclic. -/
theorem isAcyclic_sup_edge {V : Type} {G : SimpleGraph V} {u v : V}
    (hG : G.IsAcyclic) (huv : ¬G.Reachable u v) (hne : u ≠ v) :
    (G ⊔ SimpleGraph.edge u v).IsAcyclic := by
  have hnadj : ¬G.Adj u v := fun h => huv h.reachable
  rw [SimpleGraph.isAcyclic_iff_forall_adj_isBridge]
  intro a b hab
  rcases (SimpleGraph.sup_adj _ _ _ _).mp hab with hGab | hEab
  · rw [SimpleGraph.isBridge_iff]
    refine ⟨hab, ?_⟩
    have hzne : s(a, b) ≠ s(u, v) := by
      intro hz
      rcases Sym2.eq_iff.mp hz with ⟨rfl, rfl⟩ | ⟨rfl, rfl⟩
      · exact hnadj hGab
      · exact hnadj hGab.symm
    rw [sup_edge_sdiff_of_ne hzne]
    have hmono : G \ SimpleGraph.fromEdgeSet {s(a, b)} ≤ G := by
      intro x y hxy
      exact ((SimpleGraph.sdiff_adj _ _ _ _).mp hxy).1
    intro hreach
    rcases reachable_sup_edge.mp hreach with hr | ⟨h1, h2⟩ | ⟨h1, h2⟩
    · have hbr := (SimpleGraph.isAcyclic_iff_forall_adj_isBridge.mp hG) hGab
      rw [SimpleGraph.isBridge_iff] at hbr
      exact hbr.2 hr
    · exact huv ((h1.mono hmono).symm.trans
        (hGab.reachable.trans (h2.mono hmono).symm))
    · exact huv ((h2.mono hmono).trans (hGab.reachable.symm.trans
        (h1.mono hmono)))
  · rw [SimpleGraph.isBridge_iff]
    refine ⟨hab, ?_⟩
    rw [SimpleGraph.edge_adj] at hEab
    have hz : s(a, b) = s(u, v) := by
      rcases hEab.1 with ⟨rfl, rfl⟩ | ⟨rfl, rfl⟩
      · rfl
      · exact Sym2.eq_swap
    rw [hz, sup_edge_sdiff hnadj]
    intro hreach
    rcases hEab.1 with ⟨h1, h2⟩ | ⟨h1, h2⟩
    · subst h1; subst h2; exact huv hreach
    · subst h1; subst h2; exact huv hreach.symm

/-! ## The union-find invariant and the structure of the Kruskal scan -/

theorem reprDSU_id {n : ℕ} : ReprDSU (id : Fin n → Fin n) ⊥ := by
  intro x y
  rw [SimpleGraph.reachable_bot]
  exact Iff.rfl

theorem reprDSU_union {n : ℕ} {r : Fin n → Fin n} {H : SimpleGraph (Fin n)}
    {u v : Fin n} (h : ReprDSU r H) (huv : r u ≠ r v) :
    ReprDSU (dsuUnion r u v) (H ⊔ SimpleGraph.edge u v) := by
  intro x y
  rw [reachable_sup_edge]
  unfold dsuUnion
  by_cases hx : r x = r u <;> by_cases hy : r y = r u
  · rw [if_pos hx, if_pos hy]
    simp only [true_iff]
    exact Or.inl (((h x u).mp hx).trans ((h y u).mp hy).symm)
  · rw [if_pos hx, if_neg hy]
    constructor
    · intro hvy
      exact Or.inr (Or.inl ⟨(h x u).mp hx, ((h y v).mp hvy.symm).symm⟩)
    · rintro (hxy | ⟨h1, h2⟩ | ⟨h1, h2⟩)
      · exact absurd (((h x y).mpr hxy).symm.trans hx) hy
      · exact ((h y v).mpr h2.symm).symm
      · exact (hy (((h u y).mpr h2).symm)).elim
  · rw [if_neg hx, if_pos hy]
    constructor
    · intro hxv
      exact Or.inr (Or.inr ⟨(h x v).mp hxv, ((h y u).mp hy).symm⟩)
    · rintro (hxy | ⟨h1, h2⟩ | ⟨h1, h2⟩)
      · exact absurd (((h x y).mpr hxy).trans hy) hx
      · exact absurd ((h x u).mpr h1) hx
      · exact (h x v).mpr h1
  · rw [if_neg hx, if_neg hy]
    constructor
    · intro hxy
      exact Or.inl ((h x y).mp hxy)
    · rintro (hxy | ⟨h1, h2⟩ | ⟨h1, h2⟩)
      · exact (h x y).mpr hxy
      · exact absurd ((h x u).mpr h1) hx
      · exact absurd ((h y u).mpr h2.symm) hy

theorem ne_of_dsu_ne {n : ℕ} {r : Fin n → Fin n} {u v : Fin n}
    (h : r u ≠ r v) : u ≠ v := fun hh => h (hh ▸ rfl)

theorem kruskal_reach {n : ℕ} {es : List (Fin n × Fin n)}
    {r : Fin n → Fin n} {H : SimpleGraph (Fin n)} (h : ReprDSU r H)
    (x y : Fin n) :
    (H ⊔ graphOf (kruskal r es)).Reachable x y ↔
      (H ⊔ graphOf es).Reachable x y := by
  induction es generalizing r H with
  | nil => rw [kruskal]
  | cons e es ih =>
    rw [kruskal]
    split
    · rename_i hr
      rw [ih h, sup_graphOf_cons,
        sup_right_comm H (SimpleGraph.edge e.1 e.2) (graphOf es)]
      have hre : (H ⊔ graphOf es).Reachable e.1 e.2 :=
        ((h e.1 e.2).mp hr).mono le_sup_left
      exact (reachable_sup_edge_of_reachable hre).symm
    · rename_i hr
      rw [sup_graphOf_cons, sup_graphOf_cons]
      exact ih (reprDSU_union h hr)

theorem kruskal_acyclic {n : ℕ} {es : List (Fin n × Fin n)}
    {r : Fin n → Fin n} {H : SimpleGraph (Fin n)} (h : ReprDSU r H)
    (hH : H.IsAcyclic) : (H ⊔ graphOf (kruskal r es)).IsAcyclic := by
  induction es generalizing r H with
  | nil => rw [kruskal, graphOf_nil, sup_bot_eq]; exact hH
  | cons e es ih =>
    rw [kruskal]
    split
    · exact ih h hH
    · rename_i hr
      rw [sup_graphOf_cons]
      refine ih (reprDSU_union h hr) ?_
      exact isAcyclic_sup_edge hH (fun hre => hr ((h e.1 e.2).mpr hre))
        (ne_of_dsu_ne hr)

theorem dsuAfter_repr {n : ℕ} {es : List (Fin n × Fin n)}
    {r : Fin n → Fin n} {H : SimpleGraph (Fin n)} (h : ReprDSU r H) :
    ReprDSU (dsuAfter r es) (H ⊔ graphOf (kruskal r es)) := by
  induction es generalizing r H with
  | nil =>
    rw [kruskal, dsuAfter, graphOf_nil, sup_bot_eq]
    exact h
  | cons e es ih =>
    rw [kruskal, dsuAfter]
    split
    · exact ih h
    · rename_i hr
      rw [sup_graphOf_cons]
      exact ih (reprDSU_union h hr)

/-! ## Structure of the returned forest -/

theorem mstGraph_acyclic {n : ℕ} (d : Fin n → Fin n → α) :
    (mstGraph d).IsAcyclic := by
  have h : (⊥ ⊔ graphOf (kruskal id (sortedEdges d))).IsAcyclic :=
    kruskal_acyclic reprDSU_id SimpleGraph.isAcyclic_bot
  rw [bot_sup_eq] at h
  exact h

theorem mstGraph_reach_iff {n : ℕ} (d : Fin n → Fin n → α) (x y : Fin n) :
    (mstGraph d).Reachable x y ↔ (graphOf (upperEdges d)).Reachable x y := by
  have h : (⊥ ⊔ graphOf (kruskal id (sortedEdges d))).Reachable x y ↔
      (⊥ ⊔ graphOf (sortedEdges d)).Reachable x y :=
    kruskal_reach reprDSU_id x y
  rw [bot_sup_eq, bot_sup_eq] at h
  rw [mstGraph, mstEdges, h,
    graphOf_eq_of_mem_iff fun e => (mem_sortedEdges (d := d))]

/-- Kruskal's rejection invariant: a candidate edge that is not kept
has its endpoints already connected by strictly earlier kept edges. -/
theorem mst_rejection {n : ℕ} {d : Fin n → Fin n → α} {f : Fin n × Fin n}
    (hf : f ∈ upperEdges d) (hnf : f ∉ mstEdges d) :
    (graphOf ((mstEdges d).filter fun k =>
      decide (EdgeLT d k f))).Reachable f.1 f.2 := by
  have hfs : f ∈ sortedEdges d := mem_sortedEdges.mpr hf
  obtain ⟨es₁, es₂, hsplit⟩ := List.append_of_mem hfs
  have hk : mstEdges d =
      kruskal id es₁ ++ kruskal (dsuAfter id es₁) (f :: es₂) := by
    rw [mstEdges, hsplit, kruskal_append]
  have hrepr : ReprDSU (dsuAfter id es₁) (⊥ ⊔ graphOf (kruskal id es₁)) :=
    dsuAfter_repr reprDSU_id
  have hrf : dsuAfter id es₁ f.1 = dsuAfter id es₁ f.2 := by
    by_contra hne
    apply hnf
    rw [hk]
    refine List.mem_append_right _ ?_
    rw [kruskal, if_neg hne]
    exact List.mem_cons_self _ _
  have hreach := (hrepr f.1 f.2).mp hrf
  rw [bot_sup_eq] at hreach
  refine hreach.mono (graphOf_mono ?_)
  intro e he
  have heK : e ∈ mstEdges d := by
    rw [hk]; exact List.mem_append_left _ he
  have hes₁ : e ∈ es₁ := (kruskal_sublist id es₁).subset he
  have hlt : EdgeLT d e f := by
    have hp := pairwise_edgeLT_sortedEdges d
    rw [hsplit] at hp
    exact (List.pairwise_append.mp hp).2.2 e hes₁ f (List.mem_cons_self f es₂)
  rw [List.mem_filter]
  exact ⟨heK, decide_eq_true hlt⟩

/-! ## Under a genuine distance matrix the candidates form the complete
graph and the result is a spanning tree -/

theorem mem_upperEdges_isDistMatrix {n : ℕ} {d : Fin n → Fin n → α}
    (hd : IsDistMatrix d) {e : Fin n × Fin n} :
    e ∈ upperEdges d ↔ e.1 < e.2 := by
  rw [mem_upperEdges]
  exact ⟨And.left, fun h => ⟨h, (hd.2.2 e.1 e.2 (ne_of_lt h)).ne'⟩⟩

theorem graphOf_upperEdges_eq_top {n : ℕ} {d : Fin n → Fin n → α}
    (hd : IsDistMatrix d) : graphOf (upperEdges d) = ⊤ := by
  ext x y
  rw [graphOf_adj, SimpleGraph.top_adj]
  constructor
  · rintro ⟨-, hne⟩; exact hne
  · intro hne
    refine ⟨?_, hne⟩
    rcases lt_or_gt_of_ne hne with h | h
    · exact ⟨(x, y), (mem_upperEdges_isDistMatrix hd).mpr h, rfl⟩
    · exact ⟨(y, x), (mem_upperEdges_isDistMatrix hd).mpr h, Sym2.eq_swap⟩

theorem mstGraph_connected {n : ℕ} {d : Fin n → Fin n → α}
    (hd : IsDistMatrix d) (hn : 0 < n) : (mstGraph d).Connected := by
  rw [SimpleGraph.connected_iff]
  refine ⟨?_, ⟨⟨0, hn⟩⟩⟩
  intro x y
  rw [mstGraph_reach_iff, graphOf_upperEdges_eq_top hd]
  by_cases hxy : x = y
  · subst hxy; exact SimpleGraph.Reachable.refl x
  · exact ((SimpleGraph.top_adj x y).mpr hxy).reachable

theorem mstGraph_isTree {n : ℕ} {d : Fin n → Fin n → α}
    (hd : IsDistMatrix d) (hn : 0 < n) : (mstGraph d).IsTree :=
  ⟨mstGraph_connected hd hn, mstGraph_acyclic d⟩

theorem mstEdges_ne {n : ℕ} {d : Fin n → Fin n → α} {e : Fin n × Fin n}
    (he : e ∈ mstEdges d) : e.1 < e.2 :=
  (mem_upperEdges.mp (mem_upperEdges_of_mem_mstEdges he)).1

theorem mstGraph_adj_iff {n : ℕ} {d : Fin n → Fin n → α} {x y : Fin n} :
    (mstGraph d).Adj x y ↔
      (∃ e ∈ mstEdges d, s(e.1, e.2) = s(x, y)) ∧ x ≠ y :=
  graphOf_adj

theorem mstEdges_length {n : ℕ} {d : Fin n → Fin n → α}
    (hd : IsDistMatrix d) (hn : 0 < n) : (mstEdges d).length + 1 = n := by
  classical
  have htree := mstGraph_isTree hd hn
  letI : Fintype (mstGraph d).edgeSet := (Set.toFinite _).fintype
  have hcard := htree.card_edgeFinset
  have hfin : (mstGraph d).edgeFinset =
      ((mstEdges d).map fun e => s(e.1, e.2)).toFinset := by
    ext z
    induction z with
    | _ x y =>
      rw [SimpleGraph.mem_edgeFinset, SimpleGraph.mem_edgeSet, List.mem_toFinset,
        List.mem_map, mstGraph_adj_iff]
      constructor
      · rintro ⟨⟨e, he, hz⟩, -⟩
        exact ⟨e, he, hz⟩
      · rintro ⟨e, he, hz⟩
        have hlt := mstEdges_ne he
        refine ⟨⟨e, he, hz⟩, ?_⟩
        intro hxy
        subst hxy
        rcases Sym2.eq_iff.mp hz with ⟨h1, h2⟩ | ⟨h1, h2⟩ <;>
          exact absurd (h1.trans h2.symm) (ne_of_lt hlt)
  have hnodup : (((mstEdges d).map fun e => s(e.1, e.2))).Nodup := by
    refine (nodup_mstEdges d).map_on ?_
    intro e he f hf hef
    rcases Sym2.eq_iff.mp hef with ⟨h1, h2⟩ | ⟨h1, h2⟩
    · exact Prod.ext h1 h2
    · have hle := mstEdges_ne he
      have hlf := mstEdges_ne hf
      rw [h1, h2] at hle
      exact absurd (hlf.trans hle) (lt_irrefl _)
  rw [hfin, List.toFinset_card_of_nodup hnodup, List.length_map] at hcard
  rw [hcard, Fintype.card_fin]

/-! ## The full scan including the stored NaN entries -/

theorem mem_maskedNaNs {n : ℕ} {e : Fin n × Fin n} :
    e ∈ maskedNaNs n ↔ e.2 ≤ e.1 := by
  simp only [maskedNaNs, List.mem_flatMap, List.mem_filterMap,
    List.mem_finRange, true_and]
  constructor
  · rintro ⟨i, j, hj⟩
    by_cases h : j ≤ i
    · rw [if_pos h] at hj; cases hj; exact h
    · rw [if_neg h] at hj; cases hj
  · intro h
    exact ⟨e.1, e.2, by rw [if_pos h]⟩

theorem graphOf_maskedNaNs_eq_top {n : ℕ} :
    graphOf (maskedNaNs n) = ⊤ := by
  ext x y
  rw [graphOf_adj, SimpleGraph.top_adj]
  constructor
  · rintro ⟨-, hne⟩
    exact hne
  · intro hne
    refine ⟨?_, hne⟩
    rcases lt_or_gt_of_ne hne with h | h
    · exact ⟨(y, x), mem_maskedNaNs.mpr h.le, Sym2.eq_swap⟩
    · exact ⟨(x, y), mem_maskedNaNs.mpr h.le, rfl⟩

theorem dsuUnion_eq_of_eq {n : ℕ} {r : Fin n → Fin n} {x y : Fin n}
    (u v : Fin n) (h : r x = r y) : dsuUnion r u v x = dsuUnion r u v y := by
  simp only [dsuUnion, h]

theorem kruskal_ne_of_mem {n : ℕ} {es : List (Fin n × Fin n)}
    {r : Fin n → Fin n} {f : Fin n × Fin n} (hf : f ∈ kruskal r es) :
    r f.1 ≠ r f.2 := by
  induction es generalizing r with
  | nil =>
    rw [kruskal] at hf
    exact absurd hf (List.not_mem_nil f)
  | cons e es ih =>
    rw [kruskal] at hf
    split at hf
    · exact ih hf
    · rename_i hr
      rcases List.mem_cons.mp hf with rfl | hf'
      · exact hr
      · intro hc
        exact ih hf' (dsuUnion_eq_of_eq e.1 e.2 hc)

theorem kruskal_sym2_nodup {n : ℕ} {es : List (Fin n × Fin n)}
    {r : Fin n → Fin n} :
    ((kruskal r es).map fun e => s(e.1, e.2)).Nodup := by
  induction es generalizing r with
  | nil =>
    rw [kruskal]
    exact List.nodup_nil
  | cons e es ih =>
    rw [kruskal]
    split
    · exact ih
    · rename_i hr
      rw [List.map_cons, List.nodup_cons]
      refine ⟨?_, ih⟩
      rw [List.mem_map]
      rintro ⟨f, hf, hff⟩
      have hne := kruskal_ne_of_mem hf
      have he12 : dsuUnion r e.1 e.2 e.1 = dsuUnion r e.1 e.2 e.2 := by
        simp [dsuUnion]
      rcases Sym2.eq_iff.mp hff with ⟨h1, h2⟩ | ⟨h1, h2⟩
      · rw [h1, h2] at hne
        exact hne he12
      · rw [h1, h2] at hne
        exact hne he12.symm

theorem graphOf_kruskal_length {n : ℕ} {es : List (Fin n × Fin n)}
    (htree : (graphOf (kruskal id es)).IsTree) :
    (kruskal id es).length + 1 = n := by
  classical
  letI : Fintype (graphOf (kruskal id es)).edgeSet := (Set.toFinite _).fintype
  have hcard := htree.card_edgeFinset
  have hfin : (graphOf (kruskal id es)).edgeFinset =
      ((kruskal id es).map fun e => s(e.1, e.2)).toFinset := by
    ext z
    induction z with
    | _ x y =>
      rw [SimpleGraph.mem_edgeFinset, SimpleGraph.mem_edgeSet,
        List.mem_toFinset, List.mem_map, graphOf_adj]
      constructor
      · rintro ⟨⟨e, he, hz⟩, -⟩
        exact ⟨e, he, hz⟩
      · rintro ⟨e, he, hz⟩
        have hne : e.1 ≠ e.2 := kruskal_ne_of_mem he
        refine ⟨⟨e, he, hz⟩, ?_⟩
        intro hxy
        subst hxy
        rcases Sym2.eq_iff.mp hz with ⟨h1, h2⟩ | ⟨h1, h2⟩ <;>
          exact hne (h1.trans h2.symm)
  rw [hfin, List.toFinset_card_of_nodup kruskal_sym2_nodup,
    List.length_map] at hcard
  rw [hcard, Fintype.card_fin]

/-! ## List paths and walks -/

theorem support_walkOfChain {V : Type} {G : SimpleGraph V} :
    ∀ (a : V) (l : List V) (h : List.Chain G.Adj a l),
      (walkOfChain a l h).support = a :: l
  | _, [], _ => rfl
  | a, b :: l, h => by
    rw [walkOfChain, SimpleGraph.Walk.support_cons, support_walkOfChain]

theorem exists_walk_of_isListPath {V : Type} {G : SimpleGraph V} {a b : V}
    {l : List V} (h : IsListPath G a b l) :
    ∃ p : G.Walk a b, p.IsPath ∧ p.support = l := by
  obtain ⟨hch, hhead, hlast, hnodup⟩ := h
  cases l with
  | nil => cases hhead
  | cons x t =>
    rw [List.head?_cons, Option.some_inj] at hhead
    subst hhead
    have hne : x :: t ≠ [] := List.cons_ne_nil x t
    have hch' : List.Chain G.Adj x t := hch
    have hlast' : (x :: t).getLast hne = b := by
      rw [List.getLast?_eq_getLast _ hne, Option.some_inj] at hlast
      exact hlast
    refine ⟨(walkOfChain x t hch').copy rfl hlast', ?_, ?_⟩
    · rw [SimpleGraph.Walk.isPath_def, SimpleGraph.Walk.support_copy,
        support_walkOfChain]
      exact hnodup
    · rw [SimpleGraph.Walk.support_copy, support_walkOfChain]

theorem isListPath_support {V : Type} {G : SimpleGraph V} {a b : V}
    (p : G.Walk a b) (hp : p.IsPath) : IsListPath G a b p.support := by
  refine ⟨p.chain'_adj_support, ?_, ?_, (SimpleGraph.Walk.isPath_def p).mp hp⟩
  · rw [List.head?_eq_head (p.support_ne_nil), p.head_support]
  · rw [List.getLast?_eq_getLast _ (p.support_ne_nil), p.getLast_support]

theorem listPath_unique {V : Type} {G : SimpleGraph V}
    (hG : G.IsAcyclic) {a b : V} {l₁ l₂ : List V}
    (h₁ : IsListPath G a b l₁) (h₂ : IsListPath G a b l₂) : l₁ = l₂ := by
  obtain ⟨p₁, hp₁, hs₁⟩ := exists_walk_of_isListPath h₁
  obtain ⟨p₂, hp₂, hs₂⟩ := exists_walk_of_isListPath h₂
  have h := hG.path_unique ⟨p₁, hp₁⟩ ⟨p₂, hp₂⟩
  rw [← hs₁, ← hs₂]
  exact congrArg (fun q : G.Path a b => q.1.support) h

theorem walk_edges_eq_zip {V : Type} {G : SimpleGraph V} {a b : V}
    (p : G.Walk a b) :
    p.edges = (p.support.zip p.support.tail).map fun q => s(q.1, q.2) := by
  induction p with
  | nil => rfl
  | cons h p ih =>
    rw [SimpleGraph.Walk.edges_cons, SimpleGraph.Walk.support_cons, ih,
      SimpleGraph.Walk.support_eq_cons p]
    simp [List.zip_cons_cons]

/-! ## Soundness and completeness of the DFS path search -/

theorem dfs_sound {n : ℕ} {adj : Fin n → Fin n → Bool}
    (hirr : ∀ x, adj x x = false) :
    ∀ (fuel : ℕ) (visited : List (Fin n)) (cur tgt : Fin n)
      (l : List (Fin n)), cur ∉ visited →
      dfs adj fuel visited cur tgt = some l →
      l.head? = some cur ∧ l.getLast? = some tgt ∧
        l.Chain' (fun x y => adj x y = true) ∧ l.Nodup ∧
        ∀ v ∈ l, v ∉ visited := by
  intro fuel
  induction fuel with
  | zero => intro visited cur tgt l _ h; cases h
  | succ fuel ih =>
    intro visited cur tgt l hcur h
    rw [dfs] at h
    split at h
    · rename_i heq
      rw [Option.some_inj] at h
      subst h
      subst heq
      refine ⟨rfl, rfl, List.chain'_singleton _, List.nodup_singleton _, ?_⟩
      intro v hv
      rw [List.mem_singleton] at hv
      subst hv
      exact hcur
    · rename_i hne
      obtain ⟨v, hvmem, hv⟩ := List.exists_of_findSome?_eq_some h
      split at hv
      · rename_i hcond
        obtain ⟨l', hl', rfl⟩ := Option.map_eq_some'.mp hv
        have hvne : v ≠ cur := by
          intro hvc
          subst hvc
          rw [hirr v] at hcond
          exact absurd hcond.1 (by simp)
        have hvnotin : v ∉ cur :: visited := by
          rw [List.mem_cons]
          rintro (hc | hc)
          · exact hvne hc
          · exact hcond.2 hc
        obtain ⟨hh, hlast, hchain, hnodup, hdisj⟩ :=
          ih (cur :: visited) v tgt l' hvnotin hl'
        obtain ⟨x, t, rfl⟩ : ∃ x t, l' = x :: t := by
          cases l' with
          | nil => cases hh
          | cons x t => exact ⟨x, t, rfl⟩
        rw [List.head?_cons, Option.some_inj] at hh
        subst hh
        refine ⟨List.head?_cons, ?_, ?_, ?_, ?_⟩
        · rw [List.getLast?_cons_cons]
          exact hlast
        · rw [List.chain'_cons]
          exact ⟨hcond.1, hchain⟩
        · rw [List.nodup_cons]
          refine ⟨?_, hnodup⟩
          intro hc
          exact (hdisj cur hc) (List.mem_cons_self cur visited)
        · intro w hw
          rcases List.mem_cons.mp hw with rfl | hw
          · exact hcur
          · exact fun hc => hdisj w hw (List.mem_cons_of_mem cur hc)
      · cases hv

theorem dfs_complete {n : ℕ} {adj : Fin n → Fin n → Bool} :
    ∀ (l : List (Fin n)) (fuel : ℕ) (visited : List (Fin n))
      (cur tgt : Fin n), l.head? = some cur → l.getLast? = some tgt →
      l.Chain' (fun x y => adj x y = true) → l.Nodup →
      (∀ v ∈ l, v ∉ visited) → l.length ≤ fuel →
      ∃ l', dfs adj fuel visited cur tgt = some l' := by
  intro l
  induction l with
  | nil => intro fuel visited cur tgt hh; cases hh
  | cons x t ih =>
    intro fuel visited cur tgt hh hlast hchain hnodup hdisj hlen
    rw [List.head?_cons, Option.some_inj] at hh
    subst hh
    obtain ⟨fuel, rfl⟩ : ∃ f, fuel = f + 1 := by
      cases fuel with
      | zero => exact absurd hlen (by simp)
      | succ f => exact ⟨f, rfl⟩
    rw [dfs]
    by_cases hct : x = tgt
    · rw [if_pos hct]
      exact ⟨[x], rfl⟩
    · rw [if_neg hct]
      cases t with
      | nil =>
        rw [List.getLast?_singleton, Option.some_inj] at hlast
        exact absurd hlast hct
      | cons v t' =>
        have hvstep : adj x v = true := (List.chain'_cons.mp hchain).1
        have hsub : ∃ l'', dfs adj fuel (x :: visited) v tgt = some l'' := by
          refine ih fuel (x :: visited) v tgt List.head?_cons ?_ ?_ ?_ ?_ ?_
          · rw [List.getLast?_cons_cons] at hlast
            exact hlast
          · exact (List.chain'_cons.mp hchain).2
          · exact (List.nodup_cons.mp hnodup).2
          · intro w hw
            rw [List.mem_cons]
            rintro (rfl | hc)
            · exact (List.nodup_cons.mp hnodup).1 hw
            · exact hdisj w (List.mem_cons_of_mem x hw) hc
          · rw [List.length_cons] at hlen
            omega
        obtain ⟨l'', hl''⟩ := hsub
        rw [← Option.ne_none_iff_exists']
        intro hnone
        have hv := List.findSome?_eq_none_iff.mp hnone v (List.mem_finRange v)
        rw [if_pos ⟨hvstep, hdisj v (List.mem_cons_of_mem x
          (List.mem_cons_self v t'))⟩] at hv
        simp [hl''] at hv

/-! ## The predecessors matrix on the MST forest -/

theorem adjB_iff {n : ℕ} {es : List (Fin n × Fin n)}
    (hne : ∀ e ∈ es, e.1 ≠ e.2) (x y : Fin n) :
    adjB es x y = true ↔ (graphOf es).Adj x y := by
  rw [adjB, List.any_eq_true, graphOf_adj]
  constructor
  · rintro ⟨e, he, hcond⟩
    rcases of_decide_eq_true hcond with ⟨h1, h2⟩ | ⟨h1, h2⟩
    · exact ⟨⟨e, he, by rw [h1, h2]⟩,
        fun hxy => hne e he (h1.trans (hxy.trans h2.symm))⟩
    · exact ⟨⟨e, he, by rw [h1, h2]; exact Sym2.eq_swap⟩,
        fun hxy => hne e he (h1.trans (hxy.symm.trans h2.symm))⟩
  · rintro ⟨⟨e, he, hz⟩, hxy⟩
    refine ⟨e, he, decide_eq_true ?_⟩
    rcases Sym2.eq_iff.mp hz with ⟨h1, h2⟩ | ⟨h1, h2⟩
    · exact Or.inl ⟨h1, h2⟩
    · exact Or.inr ⟨h1, h2⟩

theorem mstEdges_ne_proj {n : ℕ} {d : Fin n → Fin n → α} :
    ∀ e ∈ mstEdges d, e.1 ≠ e.2 :=
  fun _ he => ne_of_lt (mstEdges_ne he)

theorem adjB_mst_iff {n : ℕ} (d : Fin n → Fin n → α) (x y : Fin n) :
    adjB (mstEdges d) x y = true ↔ (mstGraph d).Adj x y :=
  adjB_iff mstEdges_ne_proj x y

theorem adjB_mst_irrefl {n : ℕ} (d : Fin n → Fin n → α) (x : Fin n) :
    adjB (mstEdges d) x x = false := by
  rw [Bool.eq_false_iff]
  intro h
  exact SimpleGraph.irrefl _ ((adjB_mst_iff d x x).mp h)

theorem predecessors_matrix_eq_of_listPath {n : ℕ} {d : Fin n → Fin n → α}
    {i j : Fin n} {l : List (Fin n)} (hl : IsListPath (mstGraph d) i j l) :
    predecessors_matrix d i j = l.dropLast.getLast? := by
  have hcomp : ∃ l', dfs (adjB (mstEdges d)) n [] i j = some l' := by
    refine dfs_complete l n [] i j hl.2.1 hl.2.2.1 ?_ hl.2.2.2 (by simp) ?_
    · exact hl.1.imp fun a b h => (adjB_mst_iff d a b).mpr h
    · exact hl.2.2.2.length_le_card.trans (le_of_eq (Fintype.card_fin n))
  obtain ⟨l', hl'⟩ := hcomp
  have hsound := dfs_sound (adjB_mst_irrefl d) n [] i j l' (by simp) hl'
  have hlp : IsListPath (mstGraph d) i j l' :=
    ⟨hsound.2.2.1.imp fun a b h => (adjB_mst_iff d a b).mp h, hsound.1,
      hsound.2.1, hsound.2.2.2.1⟩
  have heq : l' = l := listPath_unique (mstGraph_acyclic d) hlp hl
  simp only [predecessors_matrix]
  rw [hl', heq, Option.some_bind]

theorem predecessors_matrix_self {n : ℕ} (d : Fin n → Fin n → α)
    (i : Fin n) : predecessors_matrix d i i = none := by
  have h : IsListPath (mstGraph d) i i [i] :=
    ⟨List.chain'_singleton _, rfl, rfl, List.nodup_singleton _⟩
  rw [predecessors_matrix_eq_of_listPath h]
  rfl

theorem predecessors_matrix_none_of_not_reachable {n : ℕ}
    {d : Fin n → Fin n → α} {i j : Fin n}
    (h : ¬(mstGraph d).Reachable i j) : predecessors_matrix d i j = none := by
  simp only [predecessors_matrix]
  cases hdfs : dfs (adjB (mstEdges d)) n [] i j with
  | none => rfl
  | some l =>
    exfalso
    have hsound := dfs_sound (adjB_mst_irrefl d) n [] i j l (by simp) hdfs
    have hlp : IsListPath (mstGraph d) i j l :=
      ⟨hsound.2.2.1.imp fun a b hh => (adjB_mst_iff d a b).mp hh, hsound.1,
        hsound.2.1, hsound.2.2.2.1⟩
    obtain ⟨p, -, -⟩ := exists_walk_of_isListPath hlp
    exact h ⟨p⟩

/-! ## Correctness of the reconstruction loop of
`find_path_between_stocks` -/

theorem tail_dropLast_comm {β : Type} (l : List β) :
    l.tail.dropLast = l.dropLast.tail := by
  cases l with
  | nil => rfl
  | cons a t =>
    cases t with
    | nil => rfl
    | cons b t' => rw [List.tail_cons, List.dropLast_cons₂, List.tail_cons]

theorem chain'_dropLast {β : Type} {R : β → β → Prop} {l : List β}
    (h : l.Chain' R) : l.dropLast.Chain' R := by
  rw [List.dropLast_eq_take]
  exact h.take _

theorem isListPath_length_two_le {V : Type} {G : SimpleGraph V} {a b : V}
    {l : List V} (h : IsListPath G a b l) (hab : a ≠ b) : 2 ≤ l.length := by
  obtain ⟨-, hhead, hlast, -⟩ := h
  cases l with
  | nil => cases hhead
  | cons x t =>
    cases t with
    | nil =>
      rw [List.head?_cons, Option.some_inj] at hhead
      rw [List.getLast?_singleton, Option.some_inj] at hlast
      exact absurd (hhead ▸ hlast : a = b) hab
    | cons y t' => simp [List.length_cons]

theorem isListPath_dropLast {V : Type} {G : SimpleGraph V} {a b p : V}
    {l : List V} (h : IsListPath G a b l)
    (hp : l.dropLast.getLast? = some p) : IsListPath G a p l.dropLast := by
  obtain ⟨hch, hhead, hlast, hnodup⟩ := h
  refine ⟨chain'_dropLast hch, ?_, hp, hnodup.sublist (List.dropLast_sublist l)⟩
  cases l with
  | nil => cases hhead
  | cons x t =>
    rw [List.head?_cons, Option.some_inj] at hhead
    subst hhead
    cases t with
    | nil => cases hp
    | cons y t' =>
      rw [List.dropLast_cons_of_ne_nil (List.cons_ne_nil y t'), List.head?_cons]

theorem locPred_predTable {n : ℕ} (d : Fin n → Fin n → α) (a b : Fin n) :
    locPred (predTable d) a b = .ok (predecessors_matrix d a b) := by
  rw [locPred, if_pos ⟨List.mem_finRange a, List.mem_finRange b⟩]
  rfl

theorem walkBack_step {L : Type} [DecidableEq L] (t : PredTable L)
    (goFrom : L) (fuel : ℕ) (goTo : L) (path : List L) (p : L)
    (h : locPred t goFrom goTo = .ok (some p)) :
    walkBack t goFrom (fuel + 1) goTo path =
      if p = goFrom then .ok path
      else walkBack t goFrom fuel p (p :: path) := by
  rw [walkBack, h]

theorem walkBack_ok {n : ℕ} {d : Fin n → Fin n → α} {i : Fin n} :
    ∀ (fuel : ℕ) (l : List (Fin n)) (cur : Fin n) (acc : List (Fin n)),
      IsListPath (mstGraph d) i cur l → i ≠ cur → l.length ≤ fuel + 1 →
      walkBack (predTable d) i fuel cur acc = .ok (l.tail.dropLast ++ acc) := by
  intro fuel
  induction fuel with
  | zero =>
    intro l cur acc hl hic hlen
    exact absurd ((isListPath_length_two_le hl hic).trans hlen) (by omega)
  | succ fuel ih =>
    intro l cur acc hl hic hlen
    obtain ⟨t, rfl⟩ : ∃ t, l = i :: t := by
      cases l with
      | nil => cases hl.2.1
      | cons x t =>
        have hx := hl.2.1
        rw [List.head?_cons, Option.some_inj] at hx
        exact ⟨t, by rw [hx]⟩
    have htne : t ≠ [] := by
      intro ht
      subst ht
      have := isListPath_length_two_le hl hic
      simp at this
    have hpred := predecessors_matrix_eq_of_listPath hl
    rw [List.dropLast_cons_of_ne_nil htne] at hpred
    cases htd : t.dropLast with
    | nil =>
      have hcur : t = [cur] := by
        cases t with
        | nil => exact absurd rfl htne
        | cons y t' =>
          cases t' with
          | nil =>
            have hgl := hl.2.2.1
            rw [List.getLast?_cons_cons, List.getLast?_singleton,
              Option.some_inj] at hgl
            rw [hgl]
          | cons z t'' => simp [List.dropLast_cons₂] at htd
      have hi : predecessors_matrix d i cur = some i := by
        rw [hpred, htd]
        rfl
      rw [walkBack_step (predTable d) i fuel cur acc i
        ((locPred_predTable d i cur).trans (by rw [hi])), if_pos rfl]
      rw [hcur]
      rfl
    | cons m0 m1 =>
      have hpne : t.dropLast ≠ [] := by
        rw [htd]; exact List.cons_ne_nil m0 m1
      obtain ⟨p, hp⟩ : ∃ p, t.dropLast.getLast? = some p :=
        ⟨_, List.getLast?_eq_getLast _ hpne⟩
      have hgl : predecessors_matrix d i cur = some p := by
        rw [hpred]
        rw [htd] at hp ⊢
        rw [List.getLast?_cons_cons]
        exact hp
      have hpmem : p ∈ t := (List.dropLast_sublist t).subset
        (List.mem_of_getLast?_eq_some hp)
      have hpne' : p ≠ i := by
        intro hpi
        subst hpi
        exact (List.nodup_cons.mp hl.2.2.2).1 hpmem
      rw [walkBack_step (predTable d) i fuel cur acc p
        ((locPred_predTable d i cur).trans (by rw [hgl])), if_neg hpne']
      have hdl : (i :: t).dropLast.getLast? = some p := by
        rw [List.dropLast_cons_of_ne_nil htne, htd, List.getLast?_cons_cons]
        rw [htd] at hp
        exact hp
      have hlp' : IsListPath (mstGraph d) i p (i :: t).dropLast :=
        isListPath_dropLast hl hdl
      have hlen' : (i :: t).dropLast.length ≤ fuel + 1 := by
        rw [List.length_dropLast]
        rw [List.length_cons] at hlen
        simp only [List.length_cons]
        omega
      rw [ih (i :: t).dropLast p (p :: acc) hlp' (Ne.symm hpne') hlen']
      rw [List.dropLast_cons_of_ne_nil htne, List.tail_cons, List.tail_cons]
      have happ : t.dropLast.dropLast ++ [p] = t.dropLast :=
        List.dropLast_append_getLast? p (Option.mem_def.mpr hp)
      have hlist : t.dropLast.dropLast ++ p :: acc = t.dropLast ++ acc := by
        rw [← List.singleton_append, ← List.append_assoc, happ]
      rw [hlist]

theorem find_path_step {L : Type} [DecidableEq L] (i j : L)
    (t : PredTable L) (p : L) (h : locPred t i j = .ok (some p)) :
    find_path_between_stocks i j t =
      match walkBack t i (t.labels.length + 1) j [j] with
      | .error e => .error e
      | .ok path => .ok ((i :: path).zip ((i :: path).tail)) := by
  rw [find_path_between_stocks, h]

theorem find_path_ok {n : ℕ} {d : Fin n → Fin n → α} {i j : Fin n}
    {l : List (Fin n)} (hij : i ≠ j) (hl : IsListPath (mstGraph d) i j l) :
    find_path_between_stocks i j (predTable d) = .ok (l.zip l.tail) := by
  obtain ⟨t, rfl⟩ : ∃ t, l = i :: t := by
    cases l with
    | nil => cases hl.2.1
    | cons x t =>
      have hx := hl.2.1
      rw [List.head?_cons, Option.some_inj] at hx
      exact ⟨t, by rw [hx]⟩
  have htne : t ≠ [] := by
    intro ht
    subst ht
    have := isListPath_length_two_le hl hij
    simp at this
  have hpred := predecessors_matrix_eq_of_listPath hl
  rw [List.dropLast_cons_of_ne_nil htne] at hpred
  obtain ⟨p, hp⟩ : ∃ p, (i :: t.dropLast).getLast? = some p :=
    ⟨_, List.getLast?_eq_getLast _ (List.cons_ne_nil _ _)⟩
  have hloc : locPred (predTable d) i j = .ok (some p) :=
    (locPred_predTable d i j).trans (congrArg Except.ok (hpred.trans hp))
  rw [find_path_step i j (predTable d) p hloc]
  have hfuel : (predTable d).labels.length = n := List.length_finRange n
  rw [hfuel]
  have hlen : (i :: t).length ≤ (n + 1) + 1 :=
    (hl.2.2.2.length_le_card.trans (le_of_eq (Fintype.card_fin n))).trans
      (by omega)
  rw [walkBack_ok (n + 1) (i :: t) j [j] hl hij hlen]
  have hterm : t.getLast? = some j := by
    have := hl.2.2.1
    cases t with
    | nil => exact absurd rfl htne
    | cons y t' =>
      rw [List.getLast?_cons_cons] at this
      exact this
  have happ : t.dropLast ++ [j] = t :=
    List.dropLast_append_getLast? j (Option.mem_def.mpr hterm)
  rw [List.tail_cons, happ]
  rfl

theorem ultraEntryVal_eq {n : ℕ} {d : Fin n → Fin n → α} {i j : Fin n}
    {l : List (Fin n)} (hij : i ≠ j) (hl : IsListPath (mstGraph d) i j l) :
    ultraEntryVal d i j = pyMax ((l.zip l.tail).map fun s => d s.1 s.2) := by
  rw [ultraEntryVal, find_path_ok hij hl]

/-! ## Python `max` -/

theorem foldl_max_mem (l : List α) (a : α) :
    l.foldl max a = a ∨ l.foldl max a ∈ l := by
  induction l generalizing a with
  | nil => exact Or.inl rfl
  | cons x t ih =>
    rw [List.foldl_cons]
    rcases ih (max a x) with h | h
    · rcases max_choice a x with hm | hm
      · exact Or.inl (by rw [h, hm])
      · exact Or.inr (by rw [h, hm]; exact List.mem_cons_self x t)
    · exact Or.inr (List.mem_cons_of_mem x h)

theorem le_foldl_max (l : List α) (a : α) :
    a ≤ l.foldl max a ∧ ∀ y ∈ l, y ≤ l.foldl max a := by
  induction l generalizing a with
  | nil => exact ⟨le_refl a, by simp⟩
  | cons x t ih =>
    rw [List.foldl_cons]
    obtain ⟨h1, h2⟩ := ih (max a x)
    refine ⟨(le_max_left a x).trans h1, ?_⟩
    intro y hy
    rcases List.mem_cons.mp hy with rfl | hy
    · exact (le_max_right a y).trans h1
    · exact h2 y hy

theorem pyMax_spec {l : List α} {x : α} (h : pyMax l = some x) :
    x ∈ l ∧ ∀ y ∈ l, y ≤ x := by
  cases l with
  | nil => cases h
  | cons a t =>
    rw [pyMax, Option.some_inj] at h
    subst h
    constructor
    · rcases foldl_max_mem t a with h | h
      · rw [h]; exact List.mem_cons_self a t
      · exact List.mem_cons_of_mem a h
    · intro y hy
      rcases List.mem_cons.mp hy with rfl | hy
      · exact (le_foldl_max t y).1
      · exact (le_foldl_max t a).2 y hy

theorem pyMax_isSome {l : List α} (h : l ≠ []) : ∃ x, pyMax l = some x := by
  cases l with
  | nil => exact absurd rfl h
  | cons a t => exact ⟨t.foldl max a, rfl⟩

/-! ## The double loop of the ultrametric stage -/

theorem ultraEntryVal_eq_some {n : ℕ} {d : Fin n → Fin n → α}
    {i j : Fin n} {m : α} :
    ultraEntryVal d i j = some m ↔
      ∃ steps, find_path_between_stocks i j (predTable d) = .ok steps ∧
        pyMax (steps.map fun s => d s.1 s.2) = some m := by
  rw [ultraEntryVal]
  cases h : find_path_between_stocks i j (predTable d) with
  | error e =>
    simp only
    constructor
    · intro hh; cases hh
    · rintro ⟨steps, hsteps, -⟩; cases hsteps
  | ok steps =>
    simp only
    constructor
    · intro hh; exact ⟨steps, rfl, hh⟩
    · rintro ⟨steps', hsteps, hm⟩
      rw [Except.ok.injEq] at hsteps
      rw [hsteps]
      exact hm

theorem mem_allPairs {n : ℕ} (p : Fin n × Fin n) : p ∈ allPairs n := by
  rw [allPairs, List.mem_flatMap]
  exact ⟨p.1, List.mem_finRange _, List.mem_map.mpr ⟨p.2, List.mem_finRange _, rfl⟩⟩

theorem ultraLoop_ok {n : ℕ} (d : Fin n → Fin n → α) :
    ∀ (pairs : List (Fin n × Fin n)) (acc : Fin n → Fin n → α),
      (∀ p ∈ pairs, p.1 ≠ p.2 → ∃ m, ultraEntryVal d p.1 p.2 = some m) →
      ∃ M, ultraLoop d (predTable d) pairs acc = .ok M ∧
        ∀ x y, ((x, y) ∈ pairs ∧ x ≠ y →
            ultraEntryVal d x y = some (M x y)) ∧
          (¬((x, y) ∈ pairs ∧ x ≠ y) → M x y = acc x y) := by
  intro pairs
  induction pairs with
  | nil =>
    intro acc _
    refine ⟨acc, rfl, fun x y => ⟨?_, fun _ => rfl⟩⟩
    rintro ⟨hmem, -⟩
    cases hmem
  | cons q rest ih =>
    obtain ⟨i, j⟩ := q
    intro acc hyp
    by_cases hij : i = j
    · rw [ultraLoop, if_pos hij]
      obtain ⟨M, hM, hspec⟩ := ih acc fun p hp =>
        hyp p (List.mem_cons_of_mem _ hp)
      refine ⟨M, hM, fun x y => ⟨?_, ?_⟩⟩
      · rintro ⟨hmem, hxy⟩
        rcases List.mem_cons.mp hmem with heq | hmem
        · rw [Prod.mk.injEq] at heq
          exact absurd (heq.1.trans (hij.trans heq.2.symm)) hxy
        · exact (hspec x y).1 ⟨hmem, hxy⟩
      · intro hneg
        refine (hspec x y).2 ?_
        rintro ⟨hmem, hxy⟩
        exact hneg ⟨List.mem_cons_of_mem _ hmem, hxy⟩
    · obtain ⟨m, hm⟩ := hyp (i, j) (List.mem_cons_self _ _) hij
      obtain ⟨steps, hsteps, hpy⟩ := ultraEntryVal_eq_some.mp hm
      rw [ultraLoop, if_neg hij, hsteps]
      simp only [hpy]
      obtain ⟨M, hM, hspec⟩ :=
        ih (fun i' j' => if i' = i ∧ j' = j then m else acc i' j')
          fun p hp => hyp p (List.mem_cons_of_mem _ hp)
      refine ⟨M, hM, fun x y => ⟨?_, ?_⟩⟩
      · rintro ⟨hmem, hxy⟩
        rcases List.mem_cons.mp hmem with heq | hmem
        · rw [Prod.mk.injEq] at heq
          obtain ⟨rfl, rfl⟩ := heq
          by_cases hr : (x, y) ∈ rest
          · exact (hspec x y).1 ⟨hr, hxy⟩
          · have hMxy := (hspec x y).2 fun hc => hr hc.1
            rw [if_pos ⟨rfl, rfl⟩] at hMxy
            rw [hMxy]
            exact hm
        · exact (hspec x y).1 ⟨hmem, hxy⟩
      · intro hneg
        have hMxy := (hspec x y).2 fun hc =>
          hneg ⟨List.mem_cons_of_mem _ hc.1, hc.2⟩
        rw [if_neg ?_] at hMxy
        · exact hMxy
        · rintro ⟨rfl, rfl⟩
          exact hneg ⟨List.mem_cons_self _ _, hij⟩

theorem ultrametric_ok {n : ℕ} {d : Fin n → Fin n → α}
    (hd : IsDistMatrix d) :
    ∃ M, ultrametric_distance_matrix d = .ok M ∧
      (∀ i, M i i = 0) ∧
      ∀ i j, i ≠ j → ultraEntryVal d i j = some (M i j) := by
  have hyp : ∀ p ∈ allPairs n, p.1 ≠ p.2 →
      ∃ m, ultraEntryVal d p.1 p.2 = some m := by
    rintro ⟨i, j⟩ - hij
    obtain ⟨w⟩ := (mstGraph_connected hd i.pos).preconnected i j
    have hp := w.toPath.2
    have hl := isListPath_support w.toPath.1 hp
    have hlen := isListPath_length_two_le hl hij
    obtain ⟨x, t, hxt⟩ : ∃ x t, w.toPath.1.support = x :: t := by
      cases hs : w.toPath.1.support with
      | nil => exact absurd hs w.toPath.1.support_ne_nil
      | cons x t => exact ⟨x, t, rfl⟩
    have htne : t ≠ [] := by
      intro ht
      rw [hxt, ht] at hlen
      simp at hlen
    obtain ⟨y, t', rfl⟩ : ∃ y t', t = y :: t' := by
      cases t with
      | nil => exact absurd rfl htne
      | cons y t' => exact ⟨y, t', rfl⟩
    have hzip : (w.toPath.1.support.zip w.toPath.1.support.tail).map
        (fun s => d s.1 s.2) ≠ [] := by
      rw [hxt]
      simp [List.zip_cons_cons]
    obtain ⟨m, hm⟩ := pyMax_isSome hzip
    exact ⟨m, (ultraEntryVal_eq hij hl).trans hm⟩
  obtain ⟨M, hM, hspec⟩ := ultraLoop_ok d (allPairs n) (fun _ _ => 0) hyp
  refine ⟨fun i j => if i = j then 0 else M i j, ?_, fun i => ?_, ?_⟩
  · rw [ultrametric_distance_matrix, hM]
    rfl
  · show (if i = i then 0 else M i i) = 0
    rw [if_pos rfl]
  · intro i j hij
    show ultraEntryVal d i j = some (if i = j then 0 else M i j)
    rw [if_neg hij]
    exact (hspec i j).1 ⟨mem_allPairs (i, j), hij⟩

/-! ## The ultrametric entries are path maxima -/

theorem wSym_mk {n : ℕ} {d : Fin n → Fin n → α}
    (hsym : ∀ i j, d i j = d j i) (a b : Fin n) :
    wSym d s(a, b) = d a b := by
  rw [wSym, Sym2.lift_mk]
  show d (min a b) (max a b) = d a b
  rcases le_total a b with h | h
  · rw [min_eq_left h, max_eq_right h]
  · rw [min_eq_right h, max_eq_left h]
    exact (hsym a b).symm

theorem path_weights_eq {n : ℕ} {d : Fin n → Fin n → α}
    (hsym : ∀ i j, d i j = d j i) {a b : Fin n} (p : (mstGraph d).Walk a b) :
    p.edges.map (wSym d) =
      (p.support.zip p.support.tail).map fun s => d s.1 s.2 := by
  rw [walk_edges_eq_zip, List.map_map]
  refine List.map_congr_left ?_
  intro q _
  exact wSym_mk hsym q.1 q.2

theorem ultrametric_facts {n : ℕ} {d : Fin n → Fin n → α}
    (hd : IsDistMatrix d) {M : Fin n → Fin n → α}
    (hM : ultrametric_distance_matrix d = .ok M) :
    (∀ i, M i i = 0) ∧
      ∀ i j, i ≠ j → ultraEntryVal d i j = some (M i j) := by
  obtain ⟨M', hM', hdiag, hval⟩ := ultrametric_ok hd
  rw [hM, Except.ok.injEq] at hM'
  rw [hM']
  exact ⟨hdiag, hval⟩

theorem ultra_path_max {n : ℕ} {d : Fin n → Fin n → α}
    (hd : IsDistMatrix d) {M : Fin n → Fin n → α}
    (hM : ultrametric_distance_matrix d = .ok M) {i j : Fin n}
    (hij : i ≠ j) (p : (mstGraph d).Walk i j) (hp : p.IsPath) :
    M i j ∈ p.edges.map (wSym d) ∧ ∀ x ∈ p.edges.map (wSym d), x ≤ M i j := by
  have hv := (ultrametric_facts hd hM).2 i j hij
  have hl := isListPath_support p hp
  rw [ultraEntryVal_eq hij hl] at hv
  rw [path_weights_eq hd.1 p]
  exact pyMax_spec hv

theorem exists_mst_path {n : ℕ} {d : Fin n → Fin n → α}
    (hd : IsDistMatrix d) (i j : Fin n) :
    ∃ p : (mstGraph d).Walk i j, p.IsPath := by
  obtain ⟨w⟩ := (mstGraph_connected hd i.pos).preconnected i j
  exact ⟨w.bypass, w.bypass_isPath⟩

theorem ultra_nonneg {n : ℕ} {d : Fin n → Fin n → α}
    (hd : IsDistMatrix d) {M : Fin n → Fin n → α}
    (hM : ultrametric_distance_matrix d = .ok M) (i j : Fin n) :
    0 ≤ M i j := by
  by_cases hij : i = j
  · subst hij
    rw [(ultrametric_facts hd hM).1 i]
  · obtain ⟨p, hp⟩ := exists_mst_path hd i j
    obtain ⟨hmem, -⟩ := ultra_path_max hd hM hij p hp
    obtain ⟨e, he, heq⟩ := List.mem_map.mp hmem
    induction e with
    | _ a b =>
      have hadj := p.adj_of_mem_edges he
      rw [wSym_mk hd.1 a b] at heq
      rw [← heq]
      exact le_of_lt (hd.2.2 a b hadj.ne)

theorem ultra_symm {n : ℕ} {d : Fin n → Fin n → α}
    (hd : IsDistMatrix d) {M : Fin n → Fin n → α}
    (hM : ultrametric_distance_matrix d = .ok M) (i j : Fin n) :
    M i j = M j i := by
  by_cases hij : i = j
  · rw [hij]
  · obtain ⟨p, hp⟩ := exists_mst_path hd i j
    obtain ⟨hmem, hub⟩ := ultra_path_max hd hM hij p hp
    obtain ⟨hmem', hub'⟩ := ultra_path_max hd hM (Ne.symm hij) p.reverse
      (p.isPath_reverse_iff.mpr hp)
    rw [SimpleGraph.Walk.edges_reverse, List.map_reverse] at hmem' hub'
    rw [List.mem_reverse] at hmem'
    exact le_antisymm (hub' _ (List.mem_reverse.mpr hmem))
      (hub _ hmem')

theorem ultra_strong_triangle {n : ℕ} {d : Fin n → Fin n → α}
    (hd : IsDistMatrix d) {M : Fin n → Fin n → α}
    (hM : ultrametric_distance_matrix d = .ok M) (i j k : Fin n) :
    M i j ≤ max (M i k) (M k j) := by
  by_cases hij : i = j
  · subst hij
    rw [(ultrametric_facts hd hM).1 i]
    exact le_max_of_le_left (ultra_nonneg hd hM i k)
  by_cases hik : i = k
  · subst hik
    exact le_max_of_le_right (le_refl _)
  by_cases hkj : k = j
  · subst hkj
    exact le_max_of_le_left (le_refl _)
  obtain ⟨p₁, hp₁⟩ := exists_mst_path hd i k
  obtain ⟨p₂, hp₂⟩ := exists_mst_path hd k j
  have hq : ((p₁.append p₂).bypass : (mstGraph d).Walk i j).IsPath :=
    (p₁.append p₂).bypass_isPath
  obtain ⟨hmem, -⟩ := ultra_path_max hd hM hij (p₁.append p₂).bypass hq
  obtain ⟨e, he, heq⟩ := List.mem_map.mp hmem
  have hesub := (p₁.append p₂).edges_bypass_subset he
  rw [SimpleGraph.Walk.edges_append, List.mem_append] at hesub
  obtain ⟨-, hub₁⟩ := ultra_path_max hd hM hik p₁ hp₁
  obtain ⟨-, hub₂⟩ := ultra_path_max hd hM hkj p₂ hp₂
  rcases hesub with he' | he'
  · exact le_max_of_le_left (heq ▸ hub₁ _ (List.mem_map_of_mem _ he'))
  · exact le_max_of_le_right (heq ▸ hub₂ _ (List.mem_map_of_mem _ he'))

/-! ## Toward weight minimality: exchange machinery -/

theorem reachable_of_adj_imp {V : Type} {G G' : SimpleGraph V} {x y : V}
    (h : ∀ a b, G.Adj a b → G'.Reachable a b) (hr : G.Reachable x y) :
    G'.Reachable x y := by
  obtain ⟨w⟩ := hr
  induction w with
  | nil => exact SimpleGraph.Reachable.refl _
  | cons hadj w ih => exact (h _ _ hadj).trans ih

theorem walk_split_at_edge {V : Type} {G : SimpleGraph V} {u v a b : V} :
    ∀ (p : G.Walk u v), p.edges.Nodup → s(a, b) ∈ p.edges →
      ∃ (x y : V) (q : G.Walk u x) (r : G.Walk y v),
        s(x, y) = s(a, b) ∧ s(a, b) ∉ q.edges ∧ s(a, b) ∉ r.edges ∧
          G.Adj x y := by
  intro p
  induction p with
  | nil => intro _ he; cases he
  | cons hadj w ih =>
    intro hnodup he
    rw [SimpleGraph.Walk.edges_cons] at he hnodup
    rw [List.nodup_cons] at hnodup
    rcases List.mem_cons.mp he with heq | hmem
    · rename_i x z _
      refine ⟨x, z, SimpleGraph.Walk.nil, w, heq.symm, ?_, ?_, hadj⟩
      · intro hc; cases hc
      · rw [heq]
        exact hnodup.1
    · obtain ⟨x, y, q, r, hxy, hq, hr, hxyadj⟩ := ih hnodup.2 hmem
      refine ⟨x, y, SimpleGraph.Walk.cons hadj q, r, hxy, ?_, hr, hxyadj⟩
      rw [SimpleGraph.Walk.edges_cons, List.mem_cons]
      rintro (hc | hc)
      · rw [← hc] at hnodup
        exact hnodup.1 hmem
      · exact hq hc

theorem pair_eq_of_sym2_eq {n : ℕ} {e f : Fin n × Fin n} (he : e.1 < e.2)
    (hf : f.1 < f.2) (h : s(e.1, e.2) = s(f.1, f.2)) : e = f := by
  rcases Sym2.eq_iff.mp h with ⟨h1, h2⟩ | ⟨h1, h2⟩
  · exact Prod.ext h1 h2
  · rw [h1, h2] at he
    exact absurd (hf.trans he) (lt_irrefl _)

theorem graphOfF_adj_of_mem {n : ℕ} {T : Finset (Fin n × Fin n)}
    (hT : ∀ e ∈ T, e.1 < e.2) {e : Fin n × Fin n} (he : e ∈ T) :
    (graphOfF T).Adj e.1 e.2 :=
  graphOfF_adj.mpr ⟨⟨e, he, rfl⟩, ne_of_lt (hT e he)⟩

theorem mstGraph_adj_of_mem {n : ℕ} {d : Fin n → Fin n → α}
    {e : Fin n × Fin n} (he : e ∈ mstEdges d) :
    (mstGraph d).Adj e.1 e.2 :=
  mstGraph_adj_iff.mpr ⟨⟨e, he, rfl⟩, ne_of_lt (mstEdges_ne he)⟩

theorem edgeLT_wt_le {n : ℕ} {d : Fin n → Fin n → α} {e f : Fin n × Fin n}
    (h : EdgeLT d e f) : wt d e ≤ wt d f := by
  rw [EdgeLT, edgeKey, edgeKey, Prod.Lex.lt_iff] at h
  rcases h with h | ⟨h, -⟩
  · exact le_of_lt h
  · exact le_of_eq h

/-- An edge of an acyclic graph is a bridge: removing it disconnects
its endpoints. -/
theorem acyclic_not_reachable_sdiff {V : Type} {G : SimpleGraph V}
    (hG : G.IsAcyclic) {a b : V} (hab : G.Adj a b) :
    ¬(G \ SimpleGraph.fromEdgeSet {s(a, b)}).Reachable a b := by
  have h := (SimpleGraph.isAcyclic_iff_forall_adj_isBridge.mp hG) hab
  rw [SimpleGraph.isBridge_iff] at h
  exact h.2

/-- The graph of a finite edge-pair set, with one pair erased, contains
the edge-deleted graph. -/
theorem sdiff_le_graphOfF_erase {n : ℕ} {T : Finset (Fin n × Fin n)}
    (hT : ∀ e ∈ T, e.1 < e.2) {f : Fin n × Fin n} (hf : f ∈ T) :
    graphOfF T \ SimpleGraph.fromEdgeSet {s(f.1, f.2)} ≤
      graphOfF (T.erase f) := by
  intro x y hxy
  rw [SimpleGraph.sdiff_adj, SimpleGraph.fromEdgeSet_adj] at hxy
  obtain ⟨hadj, hne⟩ := hxy
  obtain ⟨⟨e, he, hz⟩, hxyne⟩ := graphOfF_adj.mp hadj
  refine graphOfF_adj.mpr ⟨⟨e, Finset.mem_erase.mpr ⟨?_, he⟩, hz⟩, hxyne⟩
  intro hef
  subst hef
  exact hne ⟨hz.symm ▸ (Set.mem_singleton _), hxyne⟩

/-- Conversely, the erased graph avoids the erased pair's edge. -/
theorem graphOfF_erase_le_sdiff {n : ℕ} {T : Finset (Fin n × Fin n)}
    (hT : ∀ e ∈ T, e.1 < e.2) {f : Fin n × Fin n} (hf : f ∈ T) :
    graphOfF (T.erase f) ≤
      graphOfF T \ SimpleGraph.fromEdgeSet {s(f.1, f.2)} := by
  intro x y hxy
  obtain ⟨⟨e, he, hz⟩, hxyne⟩ := graphOfF_adj.mp hxy
  rw [Finset.mem_erase] at he
  rw [SimpleGraph.sdiff_adj, SimpleGraph.fromEdgeSet_adj]
  refine ⟨graphOfF_adj.mpr ⟨⟨e, he.2, hz⟩, hxyne⟩, ?_⟩
  rintro ⟨hmem, -⟩
  rw [Set.mem_singleton_iff] at hmem
  exact he.1 (pair_eq_of_sym2_eq (hT e he.2) (hT f hf) (hz.trans hmem))

theorem listWeight_eq_setWeight {n : ℕ} {β : Type}
    [LinearOrderedAddCommMonoid β] (d : Fin n → Fin n → β)
    {l : List (Fin n × Fin n)} (h : l.Nodup) :
    listWeight d l = setWeight d l.toFinset := by
  rw [listWeight, setWeight, List.sum_toFinset _ h]

/-- Every walk of the graph of a pair set whose edges avoid a pair `f`
transfers into the graph with `f` erased. -/
theorem walk_transfer_erase {n : ℕ} {T : Finset (Fin n × Fin n)}
    (hT : ∀ e ∈ T, e.1 < e.2) {f : Fin n × Fin n} (hf : f ∈ T)
    {x y : Fin n} (q : (graphOfF T).Walk x y)
    (hq : s(f.1, f.2) ∉ q.edges) : (graphOfF (T.erase f)).Reachable x y := by
  refine ⟨q.transfer _ ?_⟩
  intro z
  induction z using Sym2.ind with
  | _ a b =>
    intro hz
    have hadj := q.adj_of_mem_edges hz
    obtain ⟨⟨g, hgT, hg⟩, hab⟩ := graphOfF_adj.mp hadj
    rw [SimpleGraph.mem_edgeSet]
    refine graphOfF_adj.mpr ⟨⟨g, Finset.mem_erase.mpr ⟨?_, hgT⟩, hg⟩, hab⟩
    rintro rfl
    exact hq (hg ▸ hz)

/-- Kruskal's result weighs no more than any connected spanning edge
set drawn from the strict upper triangle. -/
theorem mst_weight_le_connected {n : ℕ} {β : Type}
    [LinearOrderedAddCommMonoid β] {d : Fin n → Fin n → β}
    (hd : IsDistMatrix d) :
    ∀ (m : ℕ) (T : Finset (Fin n × Fin n)),
      (2 * (n * n) + 1) * T.card +
        (((mstEdges d).toFinset \ T) ∪ (T \ (mstEdges d).toFinset)).card
        ≤ m →
      (∀ e ∈ T, e.1 < e.2) → (graphOfF T).Connected →
      listWeight d (mstEdges d) ≤ setWeight d T := by
  intro m
  induction m using Nat.strong_induction_on with
  | _ m ih =>
    intro T hm hT hconn
    have hwpos : ∀ e ∈ T, (0 : β) ≤ d e.1 e.2 := fun e he =>
      le_of_lt (hd.2.2 e.1 e.2 (ne_of_lt (hT e he)))
    have hcard_le : ∀ S : Finset (Fin n × Fin n), S.card ≤ n * n := by
      intro S
      simpa using Finset.card_le_univ S
    by_cases hacyc : (graphOfF T).IsAcyclic
    · by_cases hD : ((mstEdges d).toFinset \ T) ∪
          (T \ (mstEdges d).toFinset) = ∅
      · have h1 : (mstEdges d).toFinset \ T = ∅ :=
          Finset.union_eq_empty.mp hD |>.1
        have h2 : T \ (mstEdges d).toFinset = ∅ :=
          Finset.union_eq_empty.mp hD |>.2
        have heq : (mstEdges d).toFinset = T :=
          Finset.Subset.antisymm (Finset.sdiff_eq_empty_iff_subset.mp h1)
            (Finset.sdiff_eq_empty_iff_subset.mp h2)
        rw [listWeight_eq_setWeight d (nodup_mstEdges d), heq]
      · obtain ⟨e, heD, hemin⟩ := Finset.exists_min_image
          (((mstEdges d).toFinset \ T) ∪ (T \ (mstEdges d).toFinset))
          (edgeKey d) (Finset.nonempty_of_ne_empty hD)
        have heKT : e ∈ (mstEdges d).toFinset \ T := by
          rcases Finset.mem_union.mp heD with he | he
          · exact he
          · exfalso
            obtain ⟨heT, heK⟩ := Finset.mem_sdiff.mp he
            have heU : e ∈ upperEdges d :=
              (mem_upperEdges_isDistMatrix hd).mpr (hT e heT)
            have henK : e ∉ mstEdges d := fun hc =>
              heK (List.mem_toFinset.mpr hc)
            have hrej := mst_rejection heU henK
            have hmono : graphOf ((mstEdges d).filter fun k =>
                decide (EdgeLT d k e)) ≤ graphOfF (T.erase e) := by
              refine pairGraph_mono ?_
              intro k hk
              rw [Set.mem_setOf_eq, List.mem_filter] at hk
              obtain ⟨hkK, hklt⟩ := hk
              have hklt' := of_decide_eq_true hklt
              have hkT : k ∈ T := by
                by_contra hkT
                have hkD : k ∈ ((mstEdges d).toFinset \ T) ∪
                    (T \ (mstEdges d).toFinset) :=
                  Finset.mem_union_left _ (Finset.mem_sdiff.mpr
                    ⟨List.mem_toFinset.mpr hkK, hkT⟩)
                exact absurd (hemin k hkD) (not_le_of_lt hklt')
              have hkne : k ≠ e := fun hc => lt_irrefl _ (hc ▸ hklt')
              exact Finset.mem_erase.mpr ⟨hkne, hkT⟩
            have hreach := (hrej.mono hmono).mono
              (graphOfF_erase_le_sdiff hT heT)
            exact acyclic_not_reachable_sdiff hacyc
              (graphOfF_adj_of_mem hT heT) hreach
        obtain ⟨heK', heT⟩ := Finset.mem_sdiff.mp heKT
        have heK : e ∈ mstEdges d := List.mem_toFinset.mp heK'
        obtain ⟨w⟩ := hconn.preconnected e.1 e.2
        have hP := w.bypass_isPath
        have hPnodup := hP.edges_nodup
        by_cases hall : ∀ g ∈ T, s(g.1, g.2) ∈ w.bypass.edges →
            g ∈ (mstEdges d).toFinset
        · exfalso
          have hedges : ∀ z ∈ w.bypass.edges,
              z ∈ (mstGraph d \
                SimpleGraph.fromEdgeSet {s(e.1, e.2)}).edgeSet := by
            intro z
            induction z using Sym2.ind with
            | _ x y =>
              intro hz
              have hadj := w.bypass.adj_of_mem_edges hz
              obtain ⟨⟨g, hgT, hg⟩, hxy⟩ := graphOfF_adj.mp hadj
              have hgK : g ∈ mstEdges d :=
                List.mem_toFinset.mp (hall g hgT (hg ▸ hz))
              have hgne : s(x, y) ≠ s(e.1, e.2) := by
                intro hc
                exact heT (pair_eq_of_sym2_eq (mstEdges_ne hgK)
                  (mstEdges_ne heK) (hg.trans hc) ▸ hgT)
              rw [SimpleGraph.mem_edgeSet, SimpleGraph.sdiff_adj,
                SimpleGraph.fromEdgeSet_adj]
              refine ⟨graphOf_adj.mpr ⟨⟨g, hgK, hg⟩, hxy⟩, ?_⟩
              rintro ⟨hmem, -⟩
              exact hgne (Set.mem_singleton_iff.mp hmem)
          have hreach : (mstGraph d \
              SimpleGraph.fromEdgeSet {s(e.1, e.2)}).Reachable e.1 e.2 :=
            ⟨w.bypass.transfer _ hedges⟩
          exact acyclic_not_reachable_sdiff (mstGraph_acyclic d)
            (mstGraph_adj_of_mem heK) hreach
        · push_neg at hall
          obtain ⟨f, hfT, hfP, hfK⟩ := hall
          have hfK' : f ∉ mstEdges d := fun hc =>
            hfK (List.mem_toFinset.mpr hc)
          have hfD : f ∈ ((mstEdges d).toFinset \ T) ∪
              (T \ (mstEdges d).toFinset) :=
            Finset.mem_union_right _ (Finset.mem_sdiff.mpr ⟨hfT, hfK⟩)
          have hef : e ≠ f := fun hc => heT (hc ▸ hfT)
          have heltf : EdgeLT d e f :=
            lt_of_le_of_ne (hemin f hfD)
              fun hc => hef (edgeKey_injective d hc)
          have hwef : wt d e ≤ wt d f := edgeLT_wt_le heltf
          obtain ⟨x, y, q, r, hxy, hqf, hrf, hxyadj⟩ :=
            walk_split_at_edge w.bypass hPnodup hfP
          have henT' : e ∉ T.erase f := fun hc =>
            heT (Finset.mem_of_mem_erase hc)
          have hT' : ∀ g ∈ insert e (T.erase f), g.1 < g.2 := by
            intro g hg
            rcases Finset.mem_insert.mp hg with rfl | hg
            · exact mstEdges_ne heK
            · exact hT g (Finset.mem_of_mem_erase hg)
          have herase_le : graphOfF (T.erase f) ≤
              graphOfF (insert e (T.erase f)) :=
            pairGraph_mono fun p hp =>
              Finset.mem_insert_of_mem hp
          have hq' : (graphOfF (insert e (T.erase f))).Reachable e.1 x :=
            (walk_transfer_erase hT hfT q hqf).mono herase_le
          have hr' : (graphOfF (insert e (T.erase f))).Reachable y e.2 :=
            (walk_transfer_erase hT hfT r hrf).mono herase_le
          have he' : (graphOfF (insert e (T.erase f))).Reachable e.1 e.2 :=
            (graphOfF_adj_of_mem hT' (Finset.mem_insert_self _ _)).reachable
          have hxyreach : (graphOfF (insert e (T.erase f))).Reachable x y :=
            (hq'.symm.trans he').trans hr'.symm
          have hf12 : (graphOfF (insert e (T.erase f))).Reachable f.1 f.2 := by
            rcases Sym2.eq_iff.mp hxy with ⟨h1, h2⟩ | ⟨h1, h2⟩
            · rw [← h1, ← h2]; exact hxyreach
            · rw [← h1, ← h2]; exact hxyreach.symm
          have hconn' : (graphOfF (insert e (T.erase f))).Connected := by
            rw [SimpleGraph.connected_iff]
            refine ⟨?_, hconn.nonempty⟩
            intro p1 p2
            refine reachable_of_adj_imp ?_ (hconn.preconnected p1 p2)
            intro p q hpq
            obtain ⟨⟨g, hgT, hg⟩, hab⟩ := graphOfF_adj.mp hpq
            by_cases hgf : g = f
            · subst hgf
              rcases Sym2.eq_iff.mp hg with ⟨h1, h2⟩ | ⟨h1, h2⟩
              · rw [← h1, ← h2]; exact hf12
              · rw [← h1, ← h2]; exact hf12.symm
            · refine SimpleGraph.Adj.reachable ?_
              exact graphOfF_adj.mpr ⟨⟨g, Finset.mem_insert_of_mem
                (Finset.mem_erase.mpr ⟨hgf, hgT⟩), hg⟩, hab⟩
          have hcardT : T.card = (insert e (T.erase f)).card := by
            rw [Finset.card_insert_of_not_mem henT',
              Finset.card_erase_of_mem hfT]
            have : 1 ≤ T.card := Finset.card_pos.mpr ⟨f, hfT⟩
            omega
          have hDnew : ((mstEdges d).toFinset \ (insert e (T.erase f))) ∪
              ((insert e (T.erase f)) \ (mstEdges d).toFinset) =
              (((((mstEdges d).toFinset \ T) ∪
                (T \ (mstEdges d).toFinset)).erase e).erase f) := by
            ext g
            by_cases hge : g = e
            · subst hge
              simp [heK', heT, henT']
            · by_cases hgf : g = f
              · subst hgf
                simp [hfT, hfK, hef, Ne.symm hef]
              · simp only [Finset.mem_union, Finset.mem_sdiff,
                  Finset.mem_insert, Finset.mem_erase, hge, hgf,
                  false_or, not_false_iff, true_and, and_true]
                tauto
          have hfDe : f ∈ (((mstEdges d).toFinset \ T) ∪
              (T \ (mstEdges d).toFinset)).erase e :=
            Finset.mem_erase.mpr ⟨Ne.symm hef, hfD⟩
          have hDcard : (((mstEdges d).toFinset \ (insert e (T.erase f))) ∪
              ((insert e (T.erase f)) \ (mstEdges d).toFinset)).card + 2 =
              (((mstEdges d).toFinset \ T) ∪
                (T \ (mstEdges d).toFinset)).card := by
            rw [hDnew, Finset.card_erase_of_mem hfDe,
              Finset.card_erase_of_mem heD]
            have h2 : 1 ≤ ((((mstEdges d).toFinset \ T) ∪
                (T \ (mstEdges d).toFinset)).erase e).card :=
              Finset.card_pos.mpr ⟨f, hfDe⟩
            have h4 := Finset.card_erase_of_mem heD
            omega
          have hihres := ih ((2 * (n * n) + 1) * (insert e (T.erase f)).card +
              (((mstEdges d).toFinset \ (insert e (T.erase f))) ∪
                ((insert e (T.erase f)) \ (mstEdges d).toFinset)).card)
            (by rw [← hcardT]; omega)
            (insert e (T.erase f)) (le_refl _) hT' hconn'
          refine hihres.trans ?_
          rw [setWeight, setWeight, Finset.sum_insert henT']
          rw [← Finset.sum_erase_add T _ hfT]
          rw [add_comm (∑ p ∈ T.erase f, d p.1 p.2) (d f.1 f.2)]
          exact add_le_add_right hwef _
    · have hex : ∃ a b, (graphOfF T).Adj a b ∧
          ¬(graphOfF T).IsBridge s(a, b) := by
        by_contra hc
        push_neg at hc
        exact hacyc (SimpleGraph.isAcyclic_iff_forall_adj_isBridge.mpr
          fun a b hab => hc a b hab)
      obtain ⟨a, b, hadj, hnbr⟩ := hex
      rw [SimpleGraph.isBridge_iff] at hnbr
      have hreach : (graphOfF T \
          SimpleGraph.fromEdgeSet {s(a, b)}).Reachable a b := by
        by_contra hr
        exact hnbr ⟨hadj, hr⟩
      obtain ⟨⟨f, hfT, hf⟩, hab⟩ := graphOfF_adj.mp hadj
      have hreach' : (graphOfF (T.erase f)).Reachable a b := by
        refine hreach.mono ?_
        rw [show s(a, b) = s(f.1, f.2) from hf.symm]
        exact sdiff_le_graphOfF_erase hT hfT
      have hTe : ∀ g ∈ T.erase f, g.1 < g.2 := fun g hg =>
        hT g (Finset.mem_of_mem_erase hg)
      have hconn' : (graphOfF (T.erase f)).Connected := by
        rw [SimpleGraph.connected_iff]
        refine ⟨?_, hconn.nonempty⟩
        intro p1 p2
        refine reachable_of_adj_imp ?_ (hconn.preconnected p1 p2)
        intro p q hpq
        obtain ⟨⟨g, hgT, hg⟩, hpqne⟩ := graphOfF_adj.mp hpq
        by_cases hgf : g = f
        · subst hgf
          have : s(p, q) = s(a, b) := hg.symm.trans hf
          rcases Sym2.eq_iff.mp this with ⟨h1, h2⟩ | ⟨h1, h2⟩
          · rw [h1, h2]; exact hreach'
          · rw [h1, h2]; exact hreach'.symm
        · exact (graphOfF_adj.mpr ⟨⟨g, Finset.mem_erase.mpr ⟨hgf, hgT⟩,
            hg⟩, hpqne⟩).reachable
      have hcard : T.card = (T.erase f).card + 1 := by
        rw [Finset.card_erase_of_mem hfT]
        have : 1 ≤ T.card := Finset.card_pos.mpr ⟨f, hfT⟩
        omega
      have hmeas : (2 * (n * n) + 1) * (T.erase f).card +
          (((mstEdges d).toFinset \ T.erase f) ∪
            (T.erase f \ (mstEdges d).toFinset)).card <
          (2 * (n * n) + 1) * T.card := by
        have hb := Finset.card_union_le ((mstEdges d).toFinset \ T.erase f)
          (T.erase f \ (mstEdges d).toFinset)
        have hb1 := hcard_le ((mstEdges d).toFinset \ T.erase f)
        have hb2 := hcard_le (T.erase f \ (mstEdges d).toFinset)
        rw [hcard]
        have := Nat.mul_le_mul_left (2 * (n * n) + 1)
          (le_refl (T.erase f).card)
        nlinarith
      have hihres := ih ((2 * (n * n) + 1) * (T.erase f).card +
          (((mstEdges d).toFinset \ T.erase f) ∪
            (T.erase f \ (mstEdges d).toFinset)).card)
        (by omega) (T.erase f) (le_refl _) hTe hconn'
      refine hihres.trans ?_
      exact Finset.sum_le_sum_of_subset_of_nonneg (Finset.erase_subset f T)
        fun p hp _ => hwpos p hp

/-! ## The distance builder over the reals -/

theorem distance_matrix_some {n : ℕ} {ρ : Fin n → Fin n → ℝ} {i j : Fin n}
    (h : ρ i j ≤ 1) :
    distance_matrix ρ i j = some (Real.sqrt (2 * (1 - ρ i j))) := by
  rw [distance_matrix, npSqrt, if_neg (not_lt.mpr (by linarith))]

theorem sqrt_four : Real.sqrt 4 = 2 := by
  rw [show (4 : ℝ) = 2 ^ 2 by norm_num, Real.sqrt_sq (by norm_num : (0:ℝ) ≤ 2)]

/-! ## Remaining helper facts for the concrete scenarios -/

theorem pred_isSome_of_reachable {n : ℕ} {d : Fin n → Fin n → α}
    {i j : Fin n} (hij : i ≠ j) (h : (mstGraph d).Reachable i j) :
    predecessors_matrix d i j ≠ none := by
  obtain ⟨w⟩ := h
  have hl := isListPath_support w.bypass w.bypass_isPath
  rw [predecessors_matrix_eq_of_listPath hl]
  obtain ⟨t, hxt⟩ : ∃ t, w.bypass.support = i :: t := by
    cases hs : w.bypass.support with
    | nil => exact absurd hs w.bypass.support_ne_nil
    | cons x t =>
      refine ⟨t, ?_⟩
      have hx := hl.2.1
      rw [hs, List.head?_cons, Option.some_inj] at hx
      rw [hx]
  have htne : t ≠ [] := by
    intro ht
    have := isListPath_length_two_le hl hij
    rw [hxt, ht] at this
    simp at this
  rw [hxt, List.dropLast_cons_of_ne_nil htne,
    List.getLast?_eq_getLast _ (List.cons_ne_nil _ _)]
  exact Option.some_ne_none _

theorem ultraEx_ok : ultrametric_distance_matrix dEx = Except.ok uEx := by
  cases h : ultrametric_distance_matrix dEx with
  | error e =>
    exfalso
    obtain ⟨M, hM, -⟩ := ultrametric_ok (d := dEx) (by decide)
    rw [h] at hM
    exact Except.noConfusion hM
  | ok M =>
    rw [Except.ok.injEq]
    funext i j
    rw [uEx, h]
    rfl

theorem zero2_upperEdges : upperEdges (fun _ _ => (0 : α)) (n := 2) = [] := by
  have hcond : ∀ i j : Fin 2, ¬(i < j ∧ (0 : α) ≠ 0) := by
    rintro i j ⟨-, h⟩
    exact h rfl
  simp [upperEdges, hcond]

theorem zero2_mstEdges : mstEdges (fun _ _ => (0 : α)) (n := 2) = [] := by
  rw [mstEdges, sortedEdges, zero2_upperEdges, List.mergeSort_nil, kruskal]

theorem zero2_pred_none :
    predecessors_matrix (fun _ _ => (0 : α)) (0 : Fin 2) 1 = none := by
  apply predecessors_matrix_none_of_not_reachable
  rw [mstGraph, zero2_mstEdges, graphOf_nil, SimpleGraph.reachable_bot]
  decide

theorem zero2_find_path :
    find_path_between_stocks (0 : Fin 2) 1
      (predTable fun _ _ => (0 : α)) = .error (.equalEndpoints 0 1) := by
  rw [find_path_between_stocks, locPred_predTable, zero2_pred_none]

theorem zero2_ultra :
    ultrametric_distance_matrix (fun _ _ => (0 : α)) (n := 2) =
      .error (.equalEndpoints 0 1) := by
  rw [ultrametric_distance_matrix]
  have hpairs : allPairs 2 = [(0, 0), (0, 1), (1, 0), (1, 1)] := by decide
  rw [hpairs, ultraLoop, if_pos rfl, ultraLoop,
    if_neg (by decide : ¬(0 : Fin 2) = 1), zero2_find_path]
  rfl

theorem distOne_01 : distance_matrix ρOne 0 1 = some 0 := by
  rw [distance_matrix, npSqrt, ρOne]
  norm_num

/-! # Claim theorems -/

/-- C1: for every distance matrix in the sense of the specification
(symmetric, zero diagonal, positive elsewhere — hence connected) and
every pair of distinct labels, the entry of
`ultrametric_distance_matrix` is the maximum original edge weight
along the unique MST path between them (the path reconstructed by
following predecessor entries), and diagonal entries are 0. -/
theorem ultrametric_entry_is_unique_mst_path_max {n : ℕ}
    {d : Fin n → Fin n → α} (hd : IsDistMatrix d)
    {M : Fin n → Fin n → α}
    (hM : ultrametric_distance_matrix d = Except.ok M) :
    (∀ i, M i i = 0) ∧
      ∀ i j, i ≠ j →
        (∀ p q : (mstGraph d).Path i j, p = q) ∧
        ∀ p : (mstGraph d).Walk i j, p.IsPath →
          M i j ∈ p.edges.map (wSym d) ∧
            ∀ x ∈ p.edges.map (wSym d), x ≤ M i j := by
  refine ⟨(ultrametric_facts hd hM).1, fun i j hij =>
    ⟨fun p q => (mstGraph_acyclic d).path_unique p q,
      fun p hp => ultra_path_max hd hM hij p hp⟩⟩

unseal List.mergeSort List.merge in
theorem ultrametric_entry_is_unique_mst_path_max_witness :
    IsDistMatrix dEx ∧ ultrametric_distance_matrix dEx = Except.ok uEx ∧
      uEx 0 0 = 0 ∧
      ∃ p : (mstGraph dEx).Walk 0 3, p.IsPath ∧
        uEx 0 3 ∈ p.edges.map (wSym dEx) ∧
          ∀ x ∈ p.edges.map (wSym dEx), x ≤ uEx 0 3 := by
  have hd : IsDistMatrix dEx := by decide
  have h := ultrametric_entry_is_unique_mst_path_max hd ultraEx_ok
  have a01 : (mstGraph dEx).Adj 0 1 :=
    graphOf_adj.mpr ⟨⟨(0, 1), by decide, rfl⟩, by decide⟩
  have a12 : (mstGraph dEx).Adj 1 2 :=
    graphOf_adj.mpr ⟨⟨(1, 2), by decide, rfl⟩, by decide⟩
  have a23 : (mstGraph dEx).Adj 2 3 :=
    graphOf_adj.mpr ⟨⟨(2, 3), by decide, rfl⟩, by decide⟩
  have hp : (SimpleGraph.Walk.cons a01 (SimpleGraph.Walk.cons a12
      (SimpleGraph.Walk.cons a23 SimpleGraph.Walk.nil))).IsPath := by
    rw [SimpleGraph.Walk.isPath_def]
    simp only [SimpleGraph.Walk.support_cons, SimpleGraph.Walk.support_nil]
    decide
  exact ⟨hd, ultraEx_ok, h.1 0, SimpleGraph.Walk.cons a01
    (SimpleGraph.Walk.cons a12 (SimpleGraph.Walk.cons a23
      SimpleGraph.Walk.nil)), hp, (h.2 0 3 (by decide)).2 _ hp⟩

/-- C2: for every specification-valid distance matrix over n ≥ 1
labels, the returned forest has exactly n−1 edges, is a tree (acyclic
and spanning), and weighs no more than any spanning tree of the
complete graph, presented as a finite set of upper-triangle pairs. -/
theorem mst_spanning_tree_minimal {n : ℕ} {β : Type}
    [LinearOrderedAddCommMonoid β] {d : Fin n → Fin n → β}
    (hd : IsDistMatrix d) (hn : 0 < n) :
    (mstEdges d).length + 1 = n ∧ (mstGraph d).IsTree ∧
      ∀ T : Finset (Fin n × Fin n), IsSpanTree T →
        listWeight d (mstEdges d) ≤ setWeight d T := by
  refine ⟨mstEdges_length hd hn, mstGraph_isTree hd hn, ?_⟩
  intro T hT
  exact mst_weight_le_connected hd _ T (le_refl _) hT.1
    (SimpleGraph.IsTree.isConnected hT.2)

unseal List.mergeSort List.merge in
theorem mst_spanning_tree_minimal_witness :
    IsDistMatrix dEx ∧ 0 < 4 ∧ (mstEdges dEx).length + 1 = 4 ∧
      (mstGraph dEx).IsTree ∧ IsSpanTree (mstEdges dEx).toFinset ∧
      listWeight dEx (mstEdges dEx) ≤
        setWeight dEx (mstEdges dEx).toFinset := by
  have hd : IsDistMatrix dEx := by decide
  have h := mst_spanning_tree_minimal hd (by norm_num)
  have hgeq : graphOfF (mstEdges dEx).toFinset = mstGraph dEx := by
    ext x y
    rw [graphOfF_adj, mstGraph, graphOf_adj]
    simp
  have hspan : IsSpanTree (mstEdges dEx).toFinset := by
    refine ⟨fun e he => mstEdges_ne (List.mem_toFinset.mp he), ?_⟩
    rw [hgeq]
    exact h.2.1
  exact ⟨hd, by norm_num, h.1, h.2.1, hspan, h.2.2 _ hspan⟩

/-- C3: the matrix returned by `ultrametric_distance_matrix` satisfies
the strong triangle inequality and is symmetric. -/
theorem ultrametric_strong_triangle_symmetric {n : ℕ}
    {d : Fin n → Fin n → α} (hd : IsDistMatrix d)
    {M : Fin n → Fin n → α}
    (hM : ultrametric_distance_matrix d = Except.ok M) :
    (∀ i j k, M i j ≤ max (M i k) (M k j)) ∧ ∀ i j, M i j = M j i :=
  ⟨ultra_strong_triangle hd hM, ultra_symm hd hM⟩

unseal List.mergeSort List.merge in
theorem ultrametric_strong_triangle_symmetric_witness :
    IsDistMatrix dEx ∧ ultrametric_distance_matrix dEx = Except.ok uEx ∧
      uEx 0 3 ≤ max (uEx 0 1) (uEx 1 3) ∧ uEx 0 3 = uEx 3 0 := by
  have hd : IsDistMatrix dEx := by decide
  have h := ultrametric_strong_triangle_symmetric hd ultraEx_ok
  exact ⟨hd, ultraEx_ok, h.1 0 3 1, h.2 0 3⟩

/-- C4: on a valid correlation matrix the distance builder computes
`sqrt (2 * (1 - ρ))` entrywise; the result is symmetric, has exact-zero
diagonal, and all entries lie in [0, 2]. -/
theorem distance_matrix_metric {n : ℕ} {ρ : Fin n → Fin n → ℝ}
    (hρ : IsCorrMatrix ρ) :
    ∀ i j, distance_matrix ρ i j = some (Real.sqrt (2 * (1 - ρ i j))) ∧
      distance_matrix ρ i j = distance_matrix ρ j i ∧
      distance_matrix ρ i i = some 0 ∧
      ∀ v, distance_matrix ρ i j = some v → 0 ≤ v ∧ v ≤ 2 := by
  intro i j
  obtain ⟨hsym, hdiag, hrange⟩ := hρ
  have h1 := distance_matrix_some (i := i) (j := j) (hrange i j).2
  refine ⟨h1, ?_, ?_, ?_⟩
  · show npSqrt (2 * (1 - ρ i j)) = npSqrt (2 * (1 - ρ j i))
    rw [hsym i j]
  · show npSqrt (2 * (1 - ρ i i)) = some 0
    rw [hdiag i]
    norm_num [npSqrt]
  · intro v hv
    rw [h1, Option.some_inj] at hv
    subst hv
    refine ⟨Real.sqrt_nonneg _, ?_⟩
    calc Real.sqrt (2 * (1 - ρ i j)) ≤ Real.sqrt 4 :=
          Real.sqrt_le_sqrt (by nlinarith [(hrange i j).1])
      _ = 2 := sqrt_four

theorem distance_matrix_metric_witness :
    IsCorrMatrix ρEx ∧
      distance_matrix ρEx 0 1 = some (Real.sqrt (2 * (1 - ρEx 0 1))) ∧
      distance_matrix ρEx 0 1 = distance_matrix ρEx 1 0 ∧
      distance_matrix ρEx 0 0 = some 0 := by
  have hρ : IsCorrMatrix ρEx := by
    refine ⟨fun i j => ?_, fun i => ?_, fun i j => ?_⟩
    · fin_cases i <;> fin_cases j <;> norm_num [ρEx]
    · norm_num [ρEx]
    · fin_cases i <;> fin_cases j <;> norm_num [ρEx]
  have h := distance_matrix_metric hρ
  exact ⟨hρ, (h 0 1).1, (h 0 1).2.1, (h 0 0).2.2.1⟩

/-- C6 (amended): no `DisconnectedGraphError` exists in the source and
the MST builder raises nothing.  Because `csr_matrix` stores the masked
NaN entries and the edge scan has no weight check, the scan — run over
the finite candidates in any order followed by the stored NaN entries
in any order, as `np.argsort` arranges them — returns on every input,
connected or not, a full spanning tree of all the labels with exactly
n−1 kept edges; the kept NaN entries are exactly bridges between
components the finite phase left disconnected. -/
theorem mst_disconnected_returns_full_tree {n : ℕ} {d : Fin n → Fin n → α}
    (fs nanl : List (Fin n × Fin n))
    (hfs : ∀ e, e ∈ fs ↔ e ∈ upperEdges d)
    (hnan : ∀ e, e ∈ nanl ↔ e ∈ maskedNaNs n)
    (hn : 0 < n) :
    (kruskal id (fs ++ nanl)).length + 1 = n ∧
      (graphOf (kruskal id (fs ++ nanl))).IsTree ∧
      kruskal id (fs ++ nanl) =
        kruskal id fs ++ kruskal (dsuAfter id fs) nanl ∧
      ∀ e ∈ kruskal (dsuAfter id fs) nanl,
        ¬(graphOf (kruskal id fs)).Reachable e.1 e.2 := by
  have hsub : ∀ e, e ∈ maskedNaNs n → e ∈ fs ++ nanl := by
    intro e he
    exact List.mem_append.mpr (Or.inr ((hnan e).mpr he))
  have hacy : (graphOf (kruskal id (fs ++ nanl))).IsAcyclic := by
    have h : (⊥ ⊔ graphOf (kruskal id (fs ++ nanl))).IsAcyclic :=
      kruskal_acyclic reprDSU_id SimpleGraph.isAcyclic_bot
    rw [bot_sup_eq] at h
    exact h
  have hconn : (graphOf (kruskal id (fs ++ nanl))).Connected := by
    rw [SimpleGraph.connected_iff]
    refine ⟨?_, ⟨⟨0, hn⟩⟩⟩
    intro x y
    have h : (⊥ ⊔ graphOf (kruskal id (fs ++ nanl))).Reachable x y ↔
        (⊥ ⊔ graphOf (fs ++ nanl)).Reachable x y :=
      kruskal_reach reprDSU_id x y
    rw [bot_sup_eq, bot_sup_eq] at h
    rw [h]
    by_cases hxy : x = y
    · subst hxy
      exact SimpleGraph.Reachable.refl x
    · have hadj : (graphOf (maskedNaNs n)).Adj x y := by
        rw [graphOf_maskedNaNs_eq_top]
        exact (SimpleGraph.top_adj x y).mpr hxy
      exact hadj.reachable.mono (graphOf_mono hsub)
  have htree : (graphOf (kruskal id (fs ++ nanl))).IsTree := ⟨hconn, hacy⟩
  refine ⟨graphOf_kruskal_length htree, htree, kruskal_append id fs nanl, ?_⟩
  intro e he
  have hrepr : ReprDSU (dsuAfter id fs) (⊥ ⊔ graphOf (kruskal id fs)) :=
    dsuAfter_repr reprDSU_id
  have hne := kruskal_ne_of_mem he
  intro hreach
  exact hne ((hrepr e.1 e.2).mpr (hreach.mono le_sup_right))

unseal List.mergeSort List.merge in
theorem mst_disconnected_returns_full_tree_witness :
    (∀ e, e ∈ sortedEdges dZ2 ↔ e ∈ upperEdges dZ2) ∧
      (∀ e, e ∈ maskedNaNs 2 ↔ e ∈ maskedNaNs 2) ∧ 0 < 2 ∧
      (kruskal id (sortedEdges dZ2 ++ maskedNaNs 2)).length + 1 = 2 ∧
      (graphOf (kruskal id (sortedEdges dZ2 ++ maskedNaNs 2))).IsTree := by
  have h := mst_disconnected_returns_full_tree (sortedEdges dZ2)
    (maskedNaNs 2) (fun e => mem_sortedEdges) (fun e => Iff.rfl)
    (by norm_num)
  exact ⟨fun e => mem_sortedEdges, fun e => Iff.rfl, by norm_num,
    h.1, h.2.1⟩

unseal List.mergeSort List.merge in
/-- C6 (counterexample): on the disconnected two-label input whose only
finite candidate is the exact zero at (0, 1) — dropped by the csr
conversion, so the finite candidate graph leaves the two labels
unreachable — the builder raises nothing and does not return a partial
tree either: the stored NaN entry at (1, 0) is kept as a bridge and the
returned edge set is a full spanning tree of both labels. -/
theorem mst_disconnected_counterexample :
    dZ2 0 1 = 0 ∧ upperEdges dZ2 = [] ∧
      ¬(graphOf (upperEdges dZ2)).Reachable 0 1 ∧
      mstEdgesNaN dZ2 = [(1, 0)] ∧
      (graphOf (mstEdgesNaN dZ2)).Connected := by
  have h0 : upperEdges dZ2 = [] := zero2_upperEdges
  have hk : mstEdgesNaN dZ2 = [(1, 0)] := by decide
  refine ⟨rfl, h0, ?_, hk, ?_⟩
  · rw [h0, graphOf_nil, SimpleGraph.reachable_bot]
    decide
  · have hadj : (graphOf (mstEdgesNaN dZ2)).Adj 1 0 := by
      rw [hk]
      exact graphOf_adj.mpr
        ⟨⟨(1, 0), List.mem_singleton_self _, rfl⟩, by decide⟩
    rw [SimpleGraph.connected_iff]
    refine ⟨?_, ⟨0⟩⟩
    intro x y
    fin_cases x <;> fin_cases y
    · exact SimpleGraph.Reachable.refl _
    · exact hadj.symm.reachable
    · exact hadj.reachable
    · exact SimpleGraph.Reachable.refl _

/-- C7 (amended): the distance builder performs no input validation and
raises nothing — no `InvalidInputError` exists in the source — an
out-of-range correlation (> 1) makes the radicand negative and the
entry NaN (modelled `none`). -/
theorem distance_matrix_no_validation {n : ℕ} (ρ : Fin n → Fin n → ℝ)
    (i j : Fin n) (h : 1 < ρ i j) : distance_matrix ρ i j = none := by
  show npSqrt (2 * (1 - ρ i j)) = none
  rw [npSqrt, if_pos (by nlinarith)]

theorem distance_matrix_no_validation_witness :
    1 < ρBad 0 1 ∧ distance_matrix ρBad 0 1 = none := by
  have h1 : (1 : ℝ) < ρBad 0 1 := by norm_num [ρBad]
  exact ⟨h1, distance_matrix_no_validation ρBad 0 1 h1⟩

/-- C7 (counterexample): on a correlation matrix with an entry outside
[-1, 1] the builder returns normally — a matrix with a NaN entry at the
offending position and ordinary values elsewhere — instead of failing
with `InvalidInputError`. -/
theorem distance_matrix_counterexample :
    distance_matrix ρBad 0 1 = none ∧
      distance_matrix ρBad 0 0 = some 0 := by
  constructor
  · show npSqrt (2 * (1 - ρBad 0 1)) = none
    rw [npSqrt, if_pos (by norm_num [ρBad])]
  · show npSqrt (2 * (1 - ρBad 0 0)) = some 0
    rw [npSqrt]
    norm_num [ρBad]

/-- C8 (amended): a path query naming a label absent from the
predecessors table fails with the pandas `.loc` KeyError — there is no
`InvalidPairError` class in the source. -/
theorem find_path_missing_label_keyError {L : Type} [DecidableEq L]
    (t : PredTable L) (a b : L) (h : a ∉ t.labels ∨ b ∉ t.labels) :
    find_path_between_stocks a b t = .error .keyError := by
  rw [find_path_between_stocks, locPred, if_neg]
  rintro ⟨ha, hb⟩
  rcases h with h | h
  · exact h ha
  · exact h hb

theorem find_path_missing_label_keyError_witness :
    ((5 : ℕ) ∉ tEx.labels ∨ (0 : ℕ) ∉ tEx.labels) ∧
      find_path_between_stocks 0 5 tEx = .error .keyError := by
  have h : (0 : ℕ) ∉ tEx.labels ∨ (5 : ℕ) ∉ tEx.labels :=
    Or.inr (by decide)
  exact ⟨Or.inl (by decide), find_path_missing_label_keyError tEx 0 5 h⟩

/-- C8 (counterexample): querying label 5 against a table holding only
labels 0 and 1 produces the generic `KeyError` of the pandas lookup,
not an `InvalidPairError` (no such class exists in the source). -/
theorem find_path_missing_label_counterexample :
    find_path_between_stocks 0 5 tEx = .error .keyError := rfl

/-- C9: on a specification-valid distance matrix the derivation skips
every diagonal pair, so although every diagonal predecessor entry is
the -9999 sentinel, the equal-endpoints exception branch is never
reached: every off-diagonal reconstruction returns normally and the
whole derivation succeeds with a zero diagonal written by
`fill_diagonal`. -/
theorem ultrametric_never_hits_sentinel {n : ℕ} {d : Fin n → Fin n → α}
    (hd : IsDistMatrix d) :
    (∀ i, predecessors_matrix d i i = none) ∧
      (∀ i j, i ≠ j → ∃ steps,
        find_path_between_stocks i j (predTable d) = .ok steps) ∧
      ∃ M, ultrametric_distance_matrix d = .ok M ∧ ∀ i, M i i = 0 := by
  refine ⟨predecessors_matrix_self d, ?_, ?_⟩
  · intro i j hij
    obtain ⟨p, hp⟩ := exists_mst_path hd i j
    exact ⟨_, find_path_ok hij (isListPath_support p hp)⟩
  · obtain ⟨M, hM, hdiag, -⟩ := ultrametric_ok hd
    exact ⟨M, hM, hdiag⟩

unseal List.mergeSort List.merge in
theorem ultrametric_never_hits_sentinel_witness :
    IsDistMatrix dEx ∧ predecessors_matrix dEx 0 0 = none ∧
      (∃ steps, find_path_between_stocks (0 : Fin 4) 1
        (predTable dEx) = .ok steps) ∧
      ∃ M, ultrametric_distance_matrix dEx = .ok M ∧ ∀ i, M i i = 0 := by
  have hd : IsDistMatrix dEx := by decide
  have h := ultrametric_never_hits_sentinel hd
  exact ⟨hd, h.1 0, h.2.1 0 1 (by decide), h.2.2⟩

/-- C10: with two distinct labels perfectly correlated (correlation
exactly 1), the distance builder produces an exact zero entry, the
sparse-matrix conversion drops that edge, the Dijkstra predecessor
entry for the pair is the -9999 sentinel, and
`ultrametric_distance_matrix` raises the equal-endpoints `Exception`
for the two distinct labels instead of returning a matrix. -/
theorem zero_distance_drops_edge_and_raises :
    ρOne 0 1 = 1 ∧ (0 : Fin 2) ≠ 1 ∧
      distance_matrix ρOne 0 1 = some (dZR 0 1) ∧ dZR 0 1 = 0 ∧
      upperEdges dZR = [] ∧
      predecessors_matrix dZR 0 1 = none ∧
      ultrametric_distance_matrix dZR =
        .error (.equalEndpoints 0 1) := by
  refine ⟨rfl, by decide, ?_, rfl, zero2_upperEdges, zero2_pred_none,
    zero2_ultra⟩
  show distance_matrix ρOne 0 1 = some 0
  exact distOne_01

end HCluster
